import Mathlib

/-!
Verification of the simple-prolog natural-language-to-Prolog system.

Shallow embedding of the Rust sources under `src/src/app/`:
pattern compiler and token matcher (`parser/pattern_matcher.rs`),
sentence segmenter and dispatcher (`parser/parser.rs`),
lexicon database (`database/database.rs`, `database/words.rs`),
query engine (`query_engine.rs`) and the warning logger (`logger.rs`).

Strings are modelled as `List Char` (written `Str` below) so that every
operation computes by kernel reduction; Lean `String` literals enter only
through `String.toList`.  The Rust code's Unicode-aware predicates
(`char::is_whitespace`, `char::is_uppercase`, `str::to_lowercase`) are
modelled by their ASCII restrictions, which agree with Rust on the ASCII
corpus this program processes.
-/

set_option maxRecDepth 16000

namespace SimpleProlog

/-- Program strings, modelled as character lists. -/
abbrev Str := List Char

/-- ASCII whitespace, the restriction of Rust `char::is_whitespace` used
throughout the corpus. -/
def isWs (c : Char) : Bool :=
  c = ' ' || c = '\t' || c = '\n' || c = '\r'

/-- ASCII uppercase test (Rust `char::is_uppercase` on ASCII). -/
def isUpperA (c : Char) : Bool :=
  'A' ≤ c && c ≤ 'Z'

/-- ASCII lowercasing of one character (Rust lowercasing on ASCII). -/
def lowerChar (c : Char) : Char :=
  if isUpperA c then Char.ofNat (c.toNat + 32) else c

/-- Rust `str::to_lowercase` (ASCII restriction). -/
def lowerStr (s : Str) : Str :=
  s.map lowerChar

/-- Rust `str::trim`: strip leading and trailing whitespace. -/
def trimStr (s : Str) : Str :=
  ((s.dropWhile isWs).reverse.dropWhile isWs).reverse

/-- Rust `str::split_whitespace`: maximal non-whitespace runs. -/
def splitWs : Str → List Str
  | [] => []
  | c :: cs =>
    if isWs c then splitWs cs
    else
      match splitWs cs with
      | [] => [[c]]
      | w :: ws =>
        match cs with
        | [] => [[c]]
        | d :: _ => if isWs d then [c] :: w :: ws else (c :: w) :: ws

/-- Rust `str::split(sep)` for a one-character separator: pieces between
separator occurrences, empties kept. -/
def splitOnChar (sep : Char) : Str → List Str
  | [] => [[]]
  | c :: cs =>
    if c = sep then [] :: splitOnChar sep cs
    else
      match splitOnChar sep cs with
      | [] => [[c]]
      | r :: rs => (c :: r) :: rs

/-- Rust `str::replace(pat, rep)` — non-overlapping left-to-right
replacement.  `fuel` bounds the recursion; with `fuel ≥ s.length` and a
non-empty pattern the cutoff never fires. -/
def replaceFuel (pat rep : Str) : Nat → Str → Str
  | _, [] => []
  | 0, s => s
  | fuel + 1, c :: cs =>
    if pat ≠ [] ∧ pat.isPrefixOf (c :: cs) then
      rep ++ replaceFuel pat rep fuel ((c :: cs).drop pat.length)
    else
      c :: replaceFuel pat rep fuel cs

/-- Rust `str::replace(pat, rep)` with sufficient fuel (all patterns this
program replaces are non-empty). -/
def replaceStr (s pat rep : Str) : Str :=
  replaceFuel pat rep s.length s

/-- Rust `str::eq_ignore_ascii_case` (the body of `StrExt::eq_ignore_case`
in `pattern_matcher.rs`). -/
def eqIgnoreAsciiCase (a b : Str) : Bool :=
  lowerStr a = lowerStr b

/-- Rust `str::lines`: split on `'\n'`, strip one trailing `'\r'` per
line, and drop the final empty piece left by a trailing newline. -/
def linesStr (s : Str) : List Str :=
  let pieces := splitOnChar '\n' s
  let pieces :=
    match pieces.getLast? with
    | some [] => pieces.dropLast
    | _ => pieces
  pieces.map (fun l => if l.getLast? = some '\r' then l.dropLast else l)

/-- Decimal rendering of a natural number (Rust `format!`-style), as a
character list. -/
def natToStr (n : Nat) : Str :=
  (Nat.toDigits 10 n)

/-- Modelled from the spec: the part-of-speech enumeration (`WordType` in
`database/words.rs`).  The copy of `words.rs` in the snapshot lacks the
`Determiner` variant, yet `pattern_matcher.rs`, `parser.rs` and
`database_editor.rs` — files of the same snapshot — reference
`WordType::Determiner`, so the current definition of this enum is missing
from the source tree; the spec (§3) lists exactly these nine values. -/
inductive WordType where
  | Noun
  | Verb
  | Adjective
  | Adverb
  | Pronoun
  | Preposition
  | Conjunction
  | Interjection
  | Determiner
deriving DecidableEq, Repr, Fintype

/-- The nine part-of-speech values, in declaration order. -/
def wordTypeAll : List WordType :=
  [.Noun, .Verb, .Adjective, .Adverb, .Pronoun, .Preposition,
   .Conjunction, .Interjection, .Determiner]

/-- Rust `WordEntry` from `database/words.rs`. -/
structure WordEntry where
  lemma_ : Str
  word_type : WordType
  forms : List Str
deriving DecidableEq, Repr

/-- Rust `PatternToken` from `parser/pattern_matcher.rs`. -/
inductive PatternToken where
  | Literal (word : Str)
  | TypeMatch (types : List WordType)
  | Wildcard
  | Optional (inner : PatternToken)
  | Greedy (inner : PatternToken)
deriving DecidableEq, Repr

/-- The case-sensitive part-of-speech name table used by `parse_pattern`
(`pattern_matcher.rs` lines 33–42). -/
def wordTypeOfName (s : Str) : Option WordType :=
  if s = "Noun".toList then some .Noun
  else if s = "Verb".toList then some .Verb
  else if s = "Adjective".toList then some .Adjective
  else if s = "Adverb".toList then some .Adverb
  else if s = "Pronoun".toList then some .Pronoun
  else if s = "Preposition".toList then some .Preposition
  else if s = "Conjunction".toList then some .Conjunction
  else if s = "Interjection".toList then some .Interjection
  else if s = "Determiner".toList then some .Determiner
  else none

/-- The `<...>` interior of a type element: split on `|`, trim each
segment, keep known part-of-speech names (`pattern_matcher.rs` 30–44). -/
def parseTypeSegments (interior : Str) : List WordType :=
  (splitOnChar '|' interior).filterMap (fun s => wordTypeOfName (trimStr s))

/-- The element loop of `parse_pattern` (`pattern_matcher.rs` 15–70),
recursing into `[...]` interiors.  The Rust recursion is bounded by the
bracket nesting depth; the `fuel` argument (one unit per element and per
bracket descent) bounds it here. -/
def parseElements : Nat → List Str → List PatternToken
  | _, [] => []
  | 0, _ :: _ => []
  | fuel + 1, element :: rest =>
    let isGreedy := element.getLast? = some '+' && element.length > 1
    let stripped := if isGreedy then element.dropLast else element
    let base : Option PatternToken :=
      if stripped = ['*'] then some .Wildcard
      else if stripped.head? = some '<' && stripped.getLast? = some '>' then
        let types := parseTypeSegments (stripped.drop 1).dropLast
        if types.isEmpty then none else some (.TypeMatch types)
      else if stripped.head? = some '[' && stripped.getLast? = some ']' then
        (parseElements fuel (splitWs (stripped.drop 1).dropLast)).head?.map
          PatternToken.Optional
      else some (.Literal stripped)
    match base with
    | some t =>
      (if isGreedy then PatternToken.Greedy t else t) :: parseElements fuel rest
    | none => parseElements fuel rest

/-- Rust `parse_pattern` from `pattern_matcher.rs`.  The fuel
`2 * pattern.length + 1` dominates the number of elements plus bracket
descents, so the cutoff never fires. -/
def parse_pattern (pattern : Str) : List PatternToken :=
  parseElements (2 * pattern.length + 1) (splitWs pattern)

/-- The per-line capture substitution of `apply_template`
(`pattern_matcher.rs` 461–464): sequentially, for `i = 0, 1, …`, every
occurrence of `$⟨i+1⟩` is replaced by the `i`-th capture. -/
def substCaptures (captures : List Str) (tmpl : Str) : Str :=
  captures.enum.foldl
    (fun result iw => replaceStr result ('$' :: natToStr (iw.1 + 1)) iw.2) tmpl

/-- Rust `apply_template` from `pattern_matcher.rs` (450–474). -/
def apply_template (captures : List Str) (template : Str) : List Str :=
  let templates := (linesStr template).filter (fun line => trimStr line ≠ [])
  let results := templates.map (substCaptures captures)
  if results.isEmpty then [template] else results

/-- Total-function model of a Rust `HashMap<String, V>`: empty map. -/
def hmEmpty {v : Type} : Str → Option v := fun _ => none

/-- Total-function model of `HashMap::insert`. -/
def hmInsert {v : Type} (m : Str → Option v) (k : Str) (val : v) :
    Str → Option v :=
  fun x => if x = k then some val else m x

/-- Rust `Database` from `database/database.rs` (lines 7–18): the word list and
the two derived indexes (`form_index: HashMap<String, String>`,
`form_value: HashMap<String, WordEntry>`).  The persisted pattern list is
irrelevant to the index rebuild and omitted. -/
structure Database where
  words : List WordEntry
  form_index : Str → Option Str
  form_value : Str → Option WordEntry

/-- The body of the per-entry loop of `rebuild_index`
(`database/database.rs` 75–83). -/
def rebuildEntry (db : Database) (entry : WordEntry) : Database :=
  let fi := hmInsert db.form_index entry.lemma_ entry.lemma_
  let fv := hmInsert db.form_value entry.lemma_ entry
  let fi := entry.forms.foldl (fun m form => hmInsert m form entry.lemma_) fi
  { db with form_index := fi, form_value := fv }

/-- Rust `rebuild_index` from `database/database.rs` (71–84): clear both
indexes, then walk the word list. -/
def rebuild_index (db : Database) : Database :=
  db.words.foldl rebuildEntry
    { db with form_index := hmEmpty, form_value := hmEmpty }

/-- Rust `get_word_entry` from `database/words.rs` (49–52): resolve the form to
its owning lemma, then look the lemma up in `form_value`. -/
def get_word_entry (db : Database) (word : Str) : Option WordEntry :=
  (db.form_index word).bind (fun key => db.form_value key)

/-- The sentence-end lookahead of `parse_sentences` (`parser/parser.rs`
54–66), applied to the characters after a `'.'`: end of input, a newline
or carriage return, or — only when the next character is a space — skip
whitespace and require an uppercase letter. -/
def isSentenceEndAfterDot (rest : Str) : Bool :=
  match rest with
  | [] => true
  | c :: cs =>
    if c = '\n' ∨ c = '\r' then true
    else if c = ' ' then
      match (c :: cs).dropWhile isWs with
      | [] => false
      | a :: _ => isUpperA a
    else false

/-- The character loop of `parse_sentences` (`parser/parser.rs` 38–84):
accumulate characters, close a sentence after a qualifying `'.'`, emit the
trimmed, lowercased sentence when non-empty, and flush the tail. -/
def parseSentencesAux : Str → Str → List Str
  | [], current =>
    if trimStr current = [] then [] else [lowerStr (trimStr current)]
  | c :: cs, current =>
    if c = '.' ∧ isSentenceEndAfterDot cs then
      (if trimStr (current ++ [c]) = [] then []
       else [lowerStr (trimStr (current ++ [c]))]) ++ parseSentencesAux cs []
    else parseSentencesAux cs (current ++ [c])

/-- Rust `parse_sentences` from `parser/parser.rs`. -/
def parse_sentences (input : Str) : List Str :=
  parseSentencesAux input []

/-- The boundary condition exactly as the claim states it: after the
`'.'`, end of input, a newline or carriage return, or whitespace followed
(skipping intervening whitespace) by an uppercase letter. -/
def claimWsBoundary (rest : Str) : Bool :=
  rest = [] || rest.head? = some '\n' || rest.head? = some '\r' ||
    ((match rest with | [] => false | c :: _ => isWs c) &&
      (match rest.dropWhile isWs with | [] => false | a :: _ => isUpperA a))

/-- The amended boundary condition: as the claim, but only an actual space
character (not arbitrary whitespace) triggers the
skip-whitespace-then-uppercase lookahead. -/
def spaceBoundary (rest : Str) : Bool :=
  rest = [] || rest.head? = some '\n' || rest.head? = some '\r' ||
    (rest.head? = some ' ' &&
      (match rest.dropWhile isWs with | [] => false | a :: _ => isUpperA a))

/-- Chunking of an input at the `'.'` boundaries of a given condition:
returns the first chunk (boundary dot included) and the remaining chunks. -/
def chunksBy (boundary : Str → Bool) : Str → Str × List Str
  | [] => ([], [])
  | c :: cs =>
    if c = '.' ∧ boundary cs then
      ([c], (chunksBy boundary cs).1 :: (chunksBy boundary cs).2)
    else
      (c :: (chunksBy boundary cs).1, (chunksBy boundary cs).2)

/-- Emission of one raw chunk as a sentence: trim, drop if empty,
lowercase. -/
def emitChunk (s : Str) : List Str :=
  if trimStr s = [] then [] else [lowerStr (trimStr s)]

/-- The declarative segmenter: split at every qualifying `'.'`, emit every
chunk (the tail included) trimmed and lowercased, dropping empties. -/
def sentencesSpec (boundary : Str → Bool) (input : Str) : List Str :=
  emitChunk (chunksBy boundary input).1 ++
    ((chunksBy boundary input).2.map emitChunk).flatten

/-- Rust `LogLevel` from `logger.rs`. -/
inductive LogLevel where
  | Info
  | Warning
  | Error
deriving DecidableEq, Repr

/-- The `Display` rendering of `LogLevel` (`logger.rs` 14–22). -/
def logLevelStr : LogLevel → Str
  | .Info => "INFO".toList
  | .Warning => "WARN".toList
  | .Error => "ERROR".toList

/-- The state of `Logger` (`logger.rs` 32–36): the de-duplication map
`logged_entries: HashMap<String, HashSet<String>>` — modelled as the list
of its (category, payload) pairs — and the contents of the log file as a
list of lines. -/
structure Logger where
  logged_entries : List (Str × Str)
  file : List Str
deriving DecidableEq, Repr

/-- Rust `Logger::has_been_logged` (`logger.rs` 52–59). -/
def has_been_logged (lg : Logger) (category : Str) (data : Option Str) : Bool :=
  match data with
  | some d => (category, d) ∈ lg.logged_entries
  | none => false

/-- Rust `Logger::mark_as_logged` (`logger.rs` 61–68). -/
def mark_as_logged (lg : Logger) (category : Str) (data : Option Str) : Logger :=
  match data with
  | some d => { lg with logged_entries := (category, d) :: lg.logged_entries }
  | none => lg

/-- The log line written by `Logger::log` (`logger.rs` 93–105). -/
def logLine (level : LogLevel) (category message : Str) (data : Option Str) :
    Str :=
  match data with
  | some d =>
    '[' :: logLevelStr level ++ "] ".toList ++ category ++ " - ".toList ++
      message ++ ": ".toList ++ d
  | none =>
    '[' :: logLevelStr level ++ "] ".toList ++ category ++ " - ".toList ++
      message

/-- Rust `Logger::log` (`logger.rs` 70–110).  `ioFails` injects a failure of
`OpenOptions::open`/`writeln!`; the `?` on those calls returns the error
before `mark_as_logged` runs.  The pair is (call result, logger state
after the call). -/
def Logger.log (lg : Logger) (level : LogLevel) (category message : Str)
    (data : Option Str) (ioFails : Bool) : Except Unit Unit × Logger :=
  if has_been_logged lg category data then (.ok (), lg)
  else if ioFails then (.error (), lg)
  else
    (.ok (),
      mark_as_logged
        { lg with file := lg.file ++ [logLine level category message data] }
        category data)

/-- Rust `Logger::log_unparsed_sentence` (`logger.rs` 112–123). -/
def log_unparsed_sentence (lg : Logger) (sentence : Str) (ioFails : Bool) :
    Except Unit Unit × Logger :=
  Logger.log lg .Warning "unparsed_sentence".toList
    "Unable to parse sentence".toList (some sentence) ioFails

/-- The lexicon lookup the matcher consults: Rust
`database.read().get_word_entries(word)`.  Modelled from the spec: the
current plural accessor `get_word_entries` is referenced by
`pattern_matcher.rs`, `parser.rs`, `pronoun_resolver.rs` and
`interactive_converter.rs` but its definition is missing from the
snapshot (whose `words.rs` still has the singular `get_word_entry`); per
the spec it maps a word to the list of entries of its lemma, absent when
the word is unknown. -/
abbrev Lexicon := Str → Option (List WordEntry)

/-- Rust `matches_token` from `pattern_matcher.rs` (75–95). -/
def matches_token (lex : Lexicon) (word : Str) : PatternToken → Bool
  | .Literal lit => eqIgnoreAsciiCase word lit
  | .TypeMatch required =>
    match lex word with
    | some entries => entries.any (fun e => required.contains e.word_type)
    | none => required.contains WordType.Noun
  | .Wildcard => true
  | .Optional inner => matches_token lex word inner
  | .Greedy inner => matches_token lex word inner

/-- Is the token an `Optional`?  (The tail-of-pattern checks at
`pattern_matcher.rs` 115–117 and 261–264.) -/
def isOptionalTok : PatternToken → Bool
  | .Optional _ => true
  | _ => false

/-- The capture contributed by a taken `Optional`: the word iff the inner
token is a `TypeMatch` (`pattern_matcher.rs` 123–125). -/
def capturesOptional (inner : PatternToken) (w : Str) : List Str :=
  match inner with
  | .TypeMatch _ => [w]
  | _ => []

/-- Space-join of a word list (Rust `Vec::join(" ")`). -/
def joinSpace : List Str → Str
  | [] => []
  | [w] => w
  | w :: ws => w ++ ' ' :: joinSpace ws

/-- The formatted capture of a greedy span
(`pattern_matcher.rs` 170): join with spaces, lowercase, replace spaces
by underscores. -/
def greedyCapture (ws : List Str) : Str :=
  (lowerStr (joinSpace ws)).map (fun c => if c = ' ' then '_' else c)

/-- The split loop of a `Greedy` token (`pattern_matcher.rs` 168–186):
try consuming `k, k-1, …, 1` words of the matched run, formatting the
consumed span, and continuing with `cont` on the remainder of `full`. -/
def greedyLoop (cont : List Str → Option (List Str)) (full : List Str) :
    Nat → Option (List Str)
  | 0 => none
  | k + 1 =>
    match cont (full.drop (k + 1)) with
    | some caps => some (greedyCapture (full.take (k + 1)) :: caps)
    | none => greedyLoop cont full k

/-- The recursive `backtrack` of `try_match_pattern`
(`pattern_matcher.rs` 102–208), over suffix lists: `some captures` iff
the whole word list is consumed by the whole token list. -/
def backtrack (lex : Lexicon) : List PatternToken → List Str → Option (List Str)
  | [], ws => if ws = [] then some [] else none
  | t :: ts, [] => if (t :: ts).all isOptionalTok then some [] else none
  | .Optional inner :: ts, w :: ws =>
    (if matches_token lex w inner then
      (backtrack lex ts ws).map (fun caps => capturesOptional inner w ++ caps)
     else none).orElse (fun _ => backtrack lex ts (w :: ws))
  | .Wildcard :: ts, _ :: ws => backtrack lex ts ws
  | .Greedy inner :: ts, w :: ws =>
    let run := (w :: ws).takeWhile (fun x => matches_token lex x inner)
    if run = [] then none
    else greedyLoop (fun rest => backtrack lex ts rest) (w :: ws) run.length
  | t :: ts, w :: ws =>
    if matches_token lex w t then
      (backtrack lex ts ws).map (fun caps =>
        (match t with | .TypeMatch _ => [w] | _ => []) ++ caps)
    else none

/-- Rust `try_match_pattern` from `pattern_matcher.rs` (97–216). -/
def try_match_pattern (lex : Lexicon) (words : List Str)
    (tokens : List PatternToken) : Option (List Str) :=
  backtrack lex tokens words

/-- The start-index scan of `try_match_pattern_substring`
(`pattern_matcher.rs` 223–227). -/
def substringFrom (lex : Lexicon) (tokens : List PatternToken) :
    List Str → Nat → Option (List Str × Nat)
  | [], _ => none
  | w :: ws, start =>
    match backtrack lex tokens (w :: ws) with
    | some caps => some (caps, start)
    | none => substringFrom lex tokens ws (start + 1)

/-- Rust `try_match_pattern_substring` from `pattern_matcher.rs` (218–229). -/
def try_match_pattern_substring (lex : Lexicon) (words : List Str)
    (tokens : List PatternToken) : Option (List Str × Nat) :=
  substringFrom lex tokens words 0

/-- Rust `PatternMatch` from `pattern_matcher.rs` (231–238). -/
structure PatternMatch where
  pattern_name : Str
  template : Str
  captures : List Str
  start_idx : Nat
  end_idx : Nat
deriving DecidableEq, Repr

/-- The split loop of a `Greedy` token in `backtrack_with_end`
(`pattern_matcher.rs` 320–338): as `greedyLoop`, also accumulating the
number of consumed words. -/
def greedyLoopEnd (cont : List Str → Option (List Str × Nat))
    (full : List Str) : Nat → Option (List Str × Nat)
  | 0 => none
  | k + 1 =>
    match cont (full.drop (k + 1)) with
    | some r => some (greedyCapture (full.take (k + 1)) :: r.1, (k + 1) + r.2)
    | none => greedyLoopEnd cont full k

/-- The recursive `backtrack_with_end` of `try_match_at_position`
(`pattern_matcher.rs` 248–360), over suffix lists: `some (captures, n)`
where `n` is the number of consumed words — the relative end index of the
first success (the pattern need not consume every word). -/
def backtrackWithEnd (lex : Lexicon) :
    List PatternToken → List Str → Option (List Str × Nat)
  | [], _ws => some ([], 0)
  | t :: ts, [] => if (t :: ts).all isOptionalTok then some ([], 0) else none
  | .Optional inner :: ts, w :: ws =>
    (if matches_token lex w inner then
      (backtrackWithEnd lex ts ws).map
        (fun r => (capturesOptional inner w ++ r.1, r.2 + 1))
     else none).orElse (fun _ => backtrackWithEnd lex ts (w :: ws))
  | .Wildcard :: ts, _ :: ws =>
    (backtrackWithEnd lex ts ws).map (fun r => (r.1, r.2 + 1))
  | .Greedy inner :: ts, w :: ws =>
    let run := (w :: ws).takeWhile (fun x => matches_token lex x inner)
    if run = [] then none
    else greedyLoopEnd (fun rest => backtrackWithEnd lex ts rest) (w :: ws)
      run.length
  | t :: ts, w :: ws =>
    if matches_token lex w t then
      (backtrackWithEnd lex ts ws).map (fun r =>
        ((match t with | .TypeMatch _ => [w] | _ => []) ++ r.1, r.2 + 1))
    else none

/-- Rust `try_match_at_position` from `pattern_matcher.rs` (240–381). -/
def try_match_at_position (lex : Lexicon) (words : List Str) (start : Nat)
    (tokens : List PatternToken) (name template : Str) : Option PatternMatch :=
  (backtrackWithEnd lex tokens (words.drop start)).map (fun r =>
    { pattern_name := name, template := template, captures := r.1,
      start_idx := start, end_idx := start + r.2 })

/-- The collecting (run-enumerating) semantics of `backtrack_with_end`:
the list of (captures, consumed-word count) of every accepting run of the
backtracker's search, in exploration order.  `backtrackWithEnd` returns
the first element of this list. -/
def greedyLoopAll (cont : List Str → List (List Str × Nat))
    (full : List Str) : Nat → List (List Str × Nat)
  | 0 => []
  | k + 1 =>
    (cont (full.drop (k + 1))).map
      (fun r => (greedyCapture (full.take (k + 1)) :: r.1, (k + 1) + r.2)) ++
      greedyLoopAll cont full k

/-- All accepting runs of the `backtrack_with_end` search (see
`greedyLoopAll`). -/
def allMatchRuns (lex : Lexicon) :
    List PatternToken → List Str → List (List Str × Nat)
  | [], _ws => [([], 0)]
  | t :: ts, [] => if (t :: ts).all isOptionalTok then [([], 0)] else []
  | .Optional inner :: ts, w :: ws =>
    (if matches_token lex w inner then
      (allMatchRuns lex ts ws).map
        (fun r => (capturesOptional inner w ++ r.1, r.2 + 1))
     else []) ++ allMatchRuns lex ts (w :: ws)
  | .Wildcard :: ts, _ :: ws =>
    (allMatchRuns lex ts ws).map (fun r => (r.1, r.2 + 1))
  | .Greedy inner :: ts, w :: ws =>
    let run := (w :: ws).takeWhile (fun x => matches_token lex x inner)
    if run = [] then []
    else greedyLoopAll (fun rest => allMatchRuns lex ts rest) (w :: ws)
      run.length
  | t :: ts, w :: ws =>
    if matches_token lex w t then
      (allMatchRuns lex ts ws).map (fun r =>
        ((match t with | .TypeMatch _ => [w] | _ => []) ++ r.1, r.2 + 1))
    else []

/-- The conjunction-word test of `find_all_pattern_matches`
(`pattern_matcher.rs` 388–393) and of `parse_prolog`
(`parser.rs` 113–118). -/
def is_conjunction (word : Str) : Bool :=
  lowerStr word = "and".toList || lowerStr word = "or".toList ||
  lowerStr word = "nor".toList || lowerStr word = "but".toList ||
  lowerStr word = "yet".toList || lowerStr word = ",".toList

/-- Mark the positions `[s, e)` of the used-positions vector
(`pattern_matcher.rs` 438–440); `i` is the index of the first element. -/
def markUsedFrom (i s e : Nat) : List Bool → List Bool
  | [] => []
  | b :: bs => (if s ≤ i ∧ i < e then true else b) :: markUsedFrom (i + 1) s e bs

/-- The candidate scan of one `find_all_pattern_matches` loop iteration
(`pattern_matcher.rs` 399–435): all patterns in order, all start indices
in order, skipping used or conjunction-word starts, discarding candidates
overlapping used positions, keeping the strictly longest. -/
def bestCandidate (lex : Lexicon) (words : List Str) (used : List Bool)
    (patterns : List (Str × Str × List PatternToken)) : Option PatternMatch :=
  patterns.foldl (fun best p =>
    (List.range words.length).foldl (fun best start =>
      if used.getD start false then best
      else if is_conjunction (words.getD start []) then best
      else
        match try_match_at_position lex words start p.2.2 p.1 p.2.1 with
        | none => best
        | some m =>
          if (List.range' m.start_idx (m.end_idx - m.start_idx)).any
              (fun i => used.getD i false) then best
          else
            if m.end_idx - m.start_idx >
                (match best with
                 | some b => b.end_idx - b.start_idx
                 | none => 0) then
              some m
            else best) best) none

/-- The repeat-until-no-match loop of `find_all_pattern_matches`
(`pattern_matcher.rs` 398–445).  `fuel` bounds the iteration count; each
iteration that records a match marks at least one fresh position, so
`words.length + 1` units suffice (proved below). -/
def findAllLoop (lex : Lexicon) (words : List Str)
    (patterns : List (Str × Str × List PatternToken)) :
    Nat → List Bool → List PatternMatch → List PatternMatch
  | 0, _, acc => acc
  | fuel + 1, used, acc =>
    match bestCandidate lex words used patterns with
    | none => acc
    | some m =>
      findAllLoop lex words patterns fuel
        (markUsedFrom 0 m.start_idx m.end_idx used) (acc ++ [m])

/-- Rust `find_all_pattern_matches` from `pattern_matcher.rs` (383–448). -/
def find_all_pattern_matches (lex : Lexicon) (words : List Str)
    (patterns : List (Str × Str × List PatternToken)) : List PatternMatch :=
  findAllLoop lex words patterns (words.length + 1)
    (List.replicate words.length false) []

/-- Number of unused (`false`) slots of a used-positions vector. -/
def countFalse : List Bool → Nat
  | [] => 0
  | b :: bs => (if b then 0 else 1) + countFalse bs

/-- What the candidate scan of `find_all_pattern_matches` guarantees
about a selected match: its start is a word position, its span is
non-empty, and no position of its span is already used. -/
def goodCandidate (words : List Str) (used : List Bool)
    (m : PatternMatch) : Prop :=
  m.start_idx < words.length ∧ m.start_idx < m.end_idx ∧
    ∀ i, m.start_idx ≤ i → i < m.end_idx → used.getD i false = false

/-- The single-quote character, written by code point to keep source text
plain. -/
def squote : Char := Char.ofNat 39

/-- Rust `Fact` from `query_engine.rs` (10–14). -/
structure Fact where
  predicate : Str
  args : List Str
deriving DecidableEq, Repr

/-- Rust `Rule` from `query_engine.rs` (16–20). -/
structure Rule where
  head : Fact
  body : List Fact
deriving DecidableEq, Repr

/-- Rust `Pattern` from `query_engine.rs` (22–26): a named phrase. -/
structure Pattern where
  name : Str
  components : List Str
deriving DecidableEq, Repr

/-- Rust `QueryEngine` state (`query_engine.rs` 28–33).  The
`fact_map: HashMap<String, Vec<usize>>` stores, per predicate, the fact
indices in insertion order; it is modelled by filtering the fact list,
which preserves that order. -/
structure QueryEngine where
  facts : List Fact
  rules : List Rule
  patterns : List Pattern

/-- The candidates `fact_map.get(pred)` yields, in insertion order. -/
def factsWithPred (e : QueryEngine) (pred : Str) : List Fact :=
  e.facts.filter (fun f => f.predicate = pred)

/-- Rust `str::trim_end_matches('.')`. -/
def trimEndDots (s : Str) : Str :=
  (s.reverse.dropWhile (fun c => c = '.')).reverse

/-- Rust `str::find(char)`. -/
def findIdxChar (c : Char) (s : Str) : Option Nat :=
  s.findIdx? (fun x => x = c)

/-- Rust `str::rfind(char)`. -/
def rfindIdxChar (c : Char) (s : Str) : Option Nat :=
  (s.reverse.findIdx? (fun x => x = c)).map (fun i => s.length - 1 - i)

/-- Rust `parse_fact` from `query_engine.rs` (96–111).  Rust slices
`line[..open]` and `line[open+1..close]`; on degenerate inputs with
`close < open` the Rust code panics — such inputs do not arise here and
the model clamps the slice. -/
def parse_fact (line : Str) : Option Fact :=
  let line := trimStr (trimEndDots line)
  match findIdxChar '(' line, rfindIdxChar ')' line with
  | some op, some cl =>
    let predicate := trimStr (line.take op)
    let args_str := trimStr ((line.drop (op + 1)).take (cl - (op + 1)))
    let args : List Str :=
      if args_str = [] then [] else (splitOnChar ',' args_str).map trimStr
    some ⟨predicate, args⟩
  | _, _ => none

/-- Is the argument a variable?  (`query_engine.rs` 414–419: first
character uppercase.) -/
def isVariable (arg : Str) : Bool :=
  match arg with
  | [] => false
  | c :: _ => isUpperA c

/-- Model of `HashMap<String, String>` lookup on a unique-key association
list. -/
def bLookup (b : List (Str × Str)) (k : Str) : Option Str :=
  (b.find? (fun kv => kv.1 = k)).map (fun kv => kv.2)

/-- Model of `HashMap::insert` on a unique-key association list. -/
def bInsert (b : List (Str × Str)) (k v : Str) : List (Str × Str) :=
  if (b.find? (fun kv => kv.1 = k)).isSome then
    b.map (fun kv => if kv.1 = k then (k, v) else kv)
  else b ++ [(k, v)]

/-- Model of `HashMap::extend` (`combined.extend(bindings)`), overwriting
on key collisions. -/
def bExtend (b1 b2 : List (Str × Str)) : List (Str × Str) :=
  b2.foldl (fun acc kv => bInsert acc kv.1 kv.2) b1

/-- The pairwise walk of `unify` (`query_engine.rs` 414–433). -/
def unifyGo : List Str → List Str → List (Str × Str) → Option (List (Str × Str))
  | [], [], b => some b
  | q :: qs, f :: fs, b =>
    if isVariable q then
      match bLookup b q with
      | some existing => if existing = f then unifyGo qs fs b else none
      | none => unifyGo qs fs (b ++ [(q, f)])
    else
      if q = f then unifyGo qs fs b else none
  | _, _, _ => none

/-- Rust `unify` from `query_engine.rs` (403–436). -/
def unify (query_args fact_args : List Str) : Option (List (Str × Str)) :=
  if query_args.length = fact_args.length then unifyGo query_args fact_args []
  else none

/-- Lexicographic strict order on character lists (Rust `String` `Ord`,
ASCII range). -/
def strLtChars : Str → Str → Bool
  | [], [] => false
  | [], _ :: _ => true
  | _ :: _, [] => false
  | a :: xs, b :: ys => if a = b then strLtChars xs ys else decide (a < b)

/-- Stable insertion into a key-sorted association list. -/
def insertByKey (kv : Str × Str) : List (Str × Str) → List (Str × Str)
  | [] => [kv]
  | y :: ys => if strLtChars kv.1 y.1 then kv :: y :: ys else y :: insertByKey kv ys

/-- Rust `pairs.sort_by_key(|(k, _)| k.to_string())` of `format_bindings`
(`query_engine.rs` 518): stable sort by key. -/
def sortByKey (l : List (Str × Str)) : List (Str × Str) :=
  l.foldl (fun acc kv => insertByKey kv acc) []

/-- Comma-space join (Rust `Vec::join(", ")`). -/
def joinCommaSpace : List Str → Str
  | [] => []
  | [s] => s
  | s :: rest => s ++ ", ".toList ++ joinCommaSpace rest

/-- Rust `format_bindings` from `query_engine.rs` (513–525). -/
def format_bindings (b : List (Str × Str)) : Str :=
  if b = [] then "true.".toList
  else
    joinCommaSpace
      ((sortByKey b).map (fun kv => kv.1 ++ " = ".toList ++ kv.2))

/-- The reversed argument list of the bidirectional mode
(`query_engine.rs` 252–258): the fact's predicate followed by the other
arguments in original order. -/
def reversedArgs (f : Fact) (argIdx : Nat) : List Str :=
  f.predicate ::
    f.args.enum.filterMap (fun ia => if ia.1 ≠ argIdx then some ia.2 else none)

/-- De-duplicated push (`query_engine.rs` 239–241: the `seen` set holds
exactly the pushed results, so membership in the result list is the
test). -/
def dedupPush (results : List Str) (r : Str) : List Str :=
  if r ∈ results then results else results ++ [r]

/-- Variable substitution into a goal's arguments before matching
(`query_engine.rs` 447–462 and 298–316). -/
def substituteArgs (b : List (Str × Str)) (args : List Str) : List Str :=
  args.map (fun arg => if isVariable arg then (bLookup b arg).getD arg else arg)

/-- Rust `evaluate_rule` from `query_engine.rs` (438–511): unify the head,
then fold each body goal over the accumulated binding set with forward
and bidirectional matching. -/
def evaluate_rule (e : QueryEngine) (rule : Rule) (query_args : List Str) :
    Option (List Str) :=
  match unify query_args rule.head.args with
  | none => none
  | some head_bindings =>
    let all_bindings := rule.body.foldl (fun all body_fact =>
      all.foldl (fun new existing =>
        let substituted := substituteArgs existing body_fact.args
        let new := (factsWithPred e body_fact.predicate).foldl (fun new fact =>
          match unify substituted fact.args with
          | some b => new ++ [bExtend existing b]
          | none => new) new
        e.facts.foldl (fun new fact =>
          fact.args.enum.foldl (fun new ia =>
            if ia.2 = body_fact.predicate then
              match unify substituted (reversedArgs fact ia.1) with
              | some b => new ++ [bExtend existing b]
              | none => new
            else new) new) new) []) [head_bindings]
    if all_bindings = [] then none
    else some (all_bindings.map format_bindings)

/-- The result accumulation of `query_simple` (`query_engine.rs`
227–283): forward matching over the goal predicate's facts, bidirectional
matching over all facts and argument positions, then rule expansion — all
de-duplicated by formatted string. -/
def query_simpleFact (e : QueryEngine) (query_fact : Fact) : List Str :=
  e.rules.foldl (fun results rule =>
    if rule.head.predicate = query_fact.predicate then
      match evaluate_rule e rule query_fact.args with
      | some rule_results => rule_results.foldl dedupPush results
      | none => results
    else results)
    (e.facts.foldl (fun results fact =>
      fact.args.enum.foldl (fun results ia =>
        if ia.2 = query_fact.predicate then
          match unify query_fact.args (reversedArgs fact ia.1) with
          | some b => dedupPush results (format_bindings b)
          | none => results
        else results) results)
      ((factsWithPred e query_fact.predicate).foldl (fun results fact =>
        match unify query_fact.args fact.args with
        | some b => dedupPush results (format_bindings b)
        | none => results) []))

/-- Rust `query_simple` from `query_engine.rs` (227–283), parse included. -/
def query_simple (e : QueryEngine) (query_str : Str) : Except Str (List Str) :=
  match parse_fact query_str with
  | none => .error "Invalid query format".toList
  | some q => .ok (query_simpleFact e q)

/-- The character walk of `split_by_top_level_comma`
(`query_engine.rs` 195–225). -/
def splitTopCommaAux : Str → Str → Int → List Str
  | [], current, _ => if current = [] then [] else [trimStr current]
  | ch :: rest, current, depth =>
    if ch = '(' then splitTopCommaAux rest (current ++ [ch]) (depth + 1)
    else if ch = ')' then splitTopCommaAux rest (current ++ [ch]) (depth - 1)
    else if ch = ',' ∧ depth = 0 then
      trimStr current :: splitTopCommaAux rest [] depth
    else splitTopCommaAux rest (current ++ [ch]) depth

/-- Rust `split_by_top_level_comma` from `query_engine.rs`. -/
def split_by_top_level_comma (s : Str) : List Str :=
  splitTopCommaAux s [] 0

/-- Rust `is_conjunction` on a query string (`query_engine.rs` 182–193): a
top-level comma exists. -/
def isConjunctionQuery : Str → Int → Bool
  | [], _ => false
  | ch :: rest, depth =>
    if ch = '(' then isConjunctionQuery rest (depth + 1)
    else if ch = ')' then isConjunctionQuery rest (depth - 1)
    else if ch = ',' ∧ depth = 0 then true
    else isConjunctionQuery rest depth

/-- Rust `query_conjunction` from `query_engine.rs` (285–339): fold each
sub-goal over the accumulated bindings with forward matching only, no
de-duplication. -/
def query_conjunction (e : QueryEngine) (query_str : Str) :
    Except Str (List Str) :=
  ((split_by_top_level_comma query_str).foldlM
    (fun (all : List (List (Str × Str))) pred_str =>
      match parse_fact pred_str with
      | none => Except.error ("Invalid predicate: ".toList ++ pred_str)
      | some query_fact =>
        Except.ok (all.foldl (fun new (existing : List (Str × Str)) =>
          let substituted := substituteArgs existing query_fact.args
          (factsWithPred e query_fact.predicate).foldl
            (fun new (fact : Fact) =>
              match unify substituted fact.args with
              | some b => new ++ [bExtend existing b]
              | none => new) new) []))
    [[]]).map (fun (all : List (List (Str × Str))) => all.map format_bindings)

/-- The inner fact loop of `generate_combinations`
(`query_engine.rs` 387–395), continuing combination building on each
unary fact's argument. -/
def genList (cont : List Str → Except Str (List (List Str)))
    (current : List Str) : List Str → Except Str (List (List Str))
  | [] => .ok []
  | a :: rest => do
    let c1 ← cont (current ++ [a])
    let c2 ← genList cont current rest
    .ok (c1 ++ c2)

/-- Rust `generate_combinations` from `query_engine.rs` (373–401). -/
def generate_combinations (e : QueryEngine) :
    List Str → List Str → Except Str (List (List Str))
  | [], current => .ok [current]
  | comp :: rest, current =>
    if e.facts.any (fun f => f.predicate = comp) then
      genList (fun cur => generate_combinations e rest cur) current
        ((factsWithPred e comp).filterMap (fun f =>
          match f.args with
          | [a] => some a
          | _ => none))
    else .error ("No facts found for component ".toList ++ comp)

/-- Rust `query_phrase` from `query_engine.rs` (341–371). -/
def query_phrase (e : QueryEngine) (query_str : Str) : Except Str (List Str) :=
  let qs := trimStr ((query_str.reverse.dropWhile (fun c => c = ')')).reverse)
  match splitOnChar '(' qs with
  | [_p0, p1] =>
    let args := (splitOnChar ',' p1).map trimStr
    match args with
    | [pattern_name, var_name] =>
      match e.patterns.find? (fun p => p.name = pattern_name) with
      | none =>
        .error ("Pattern ".toList ++ [squote] ++ pattern_name ++ [squote] ++
          " not defined".toList)
      | some pattern =>
        (generate_combinations e pattern.components []).map
          (fun results => results.map (fun combination =>
            var_name ++ " = [".toList ++ joinCommaSpace combination ++
              "]".toList))
    | _ =>
      .error "phrase/2 expects 2 arguments: phrase(pattern, Variable)".toList
  | _ => .error "Invalid phrase query format".toList

/-- Rust `query` from `query_engine.rs` (168–180): route to phrase,
conjunction, or simple handling. -/
def query (e : QueryEngine) (query_str : Str) : Except Str (List Str) :=
  let q := trimStr (trimEndDots query_str)
  if "phrase(".toList.isPrefixOf q then query_phrase e q
  else if isConjunctionQuery q 0 then query_conjunction e q
  else query_simple e q

/-- Rust `PrologPattern` from `database/sentences.rs` (5–12). -/
structure PrologPattern where
  name : Str
  pattern : Str
  template : Str
  priority : Int
  enabled : Bool
deriving DecidableEq, Repr

/-- Stable descending insertion for `sort_by(|a, b| b.priority.cmp(&a.priority))`. -/
def insertByPriority (p : PrologPattern) :
    List PrologPattern → List PrologPattern
  | [] => [p]
  | q :: qs =>
    if p.priority > q.priority then p :: q :: qs else q :: insertByPriority p qs

/-- Rust `get_sorted_patterns` from `database/sentences.rs` (14–21):
enabled-only, priority descending, declaration order on ties (Rust
`sort_by` is stable). -/
def get_sorted_patterns (patterns : List PrologPattern) : List PrologPattern :=
  (patterns.filter (fun p => p.enabled)).foldl
    (fun acc p => insertByPriority p acc) []

/-- The database state the dispatcher reads: the pattern list and the
lexicon lookup (see `Lexicon`). -/
structure ParserDb where
  patterns : List PrologPattern
  lex : Lexicon

/-- Newline join (Rust `Vec::join("\n")`). -/
def joinNl : List Str → Str
  | [] => []
  | [s] => s
  | s :: rest => s ++ '\n' :: joinNl rest

/-- The no-conjunction multi-match block of `parse_prolog`
(`parser.rs` 120–157): `some` output iff `find_all_pattern_matches`
found anything. -/
def multiMatchStage (lex : Lexicon) (words : List Str)
    (patterns_with_tokens : List (Str × Str × List PatternToken))
    (sentence : Str) : Option Str :=
  let ms := find_all_pattern_matches lex words patterns_with_tokens
  if ms = [] then none
  else
    some (joinNl (("// FROM: ".toList ++ sentence) ::
      (ms.map (fun m =>
        ("// PATTERN: ".toList ++ m.pattern_name ++ " (words ".toList ++
          natToStr m.start_idx ++ "-".toList ++ natToStr m.end_idx ++
          ")".toList) ::
        apply_template m.captures m.template)).flatten) ++ "\n".toList)

/-- The first enabled pattern (in sorted order) whose compiled program
exactly matches the word list, with its captures (`parser.rs`
210–236: each of `first_match`/`second_match` takes the first success). -/
def firstPatternMatch (lex : Lexicon) (patterns : List PrologPattern)
    (ws : List Str) : Option (PrologPattern × List Str) :=
  match patterns with
  | [] => none
  | p :: rest =>
    match try_match_pattern lex ws (parse_pattern p.pattern) with
    | some caps => some (p, caps)
    | none => firstPatternMatch lex rest ws

/-- The subject end scan of the conjunction path (`parser.rs` 179–195):
index just past the first word that is unknown to the lexicon or has a
Noun entry; 0 when no word qualifies. -/
def subjectEndIdx (lex : Lexicon) (words : List Str) : Nat :=
  match words.findIdx? (fun w =>
    match lex w with
    | some entries => entries.any (fun e => e.word_type = WordType.Noun)
    | none => true) with
  | some i => i + 1
  | none => 0

/-- The subject-sharing expansion output (`parser.rs` 197–284). -/
def subjectSharingOut (lex : Lexicon) (patterns : List PrologPattern)
    (words : List Str) (conj_idx : Nat) (sentence : Str) : Option Str :=
  let before := words.take conj_idx
  let after := words.drop (conj_idx + 1)
  let subject_end := subjectEndIdx lex words
  if 0 < subject_end ∧ subject_end ≤ conj_idx then
    match firstPatternMatch lex patterns before,
        firstPatternMatch lex patterns (words.take subject_end ++ after) with
    | some (p1, c1), some (p2, c2) =>
      some (joinNl (("// FROM: ".toList ++ sentence) ::
        ("// PATTERN: ".toList ++ p1.name ++ " (conjunction expansion)".toList) ::
        (apply_template c1 p1.template ++
          (("// PATTERN: ".toList ++ p2.name) ::
            apply_template c2 p2.template))) ++ "\n".toList)
    | _, _ => none
  else none

/-- One suffix-split attempt (`parser.rs` 286–353, body of the split
loop): the first pattern matching both expanded sentences wins; the
emitted output recomputes both matches.  Note the source's
`first_sentence` is `shared_prefix ++ before[split..] = before` for every
split point. -/
def suffixSplitAt (lex : Lexicon) (patterns : List PrologPattern)
    (before after : List Str) (sentence : Str) (split : Nat) : Option Str :=
  let first_sentence := before.take split ++ before.drop split
  let second_sentence := before.take split ++ after
  match patterns.find? (fun p =>
    (try_match_pattern lex first_sentence (parse_pattern p.pattern)).isSome &&
    (try_match_pattern lex second_sentence (parse_pattern p.pattern)).isSome) with
  | none => none
  | some p =>
    let header := ("// FROM: ".toList ++ sentence) ::
      [("// PATTERN: ".toList ++ p.name ++
        " (with conjunction expansion)".toList)]
    let firstLines :=
      match try_match_pattern lex first_sentence (parse_pattern p.pattern) with
      | some c => apply_template c p.template
      | none => []
    let secondLines :=
      match try_match_pattern lex second_sentence (parse_pattern p.pattern) with
      | some c => apply_template c p.template
      | none => []
    some (joinNl (header ++ firstLines ++ secondLines) ++ "\n".toList)

/-- The split loop `for split_point in (0..=before.len()).rev()`
(`parser.rs` 286). -/
def suffixSplitLoop (lex : Lexicon) (patterns : List PrologPattern)
    (before after : List Str) (sentence : Str) : Nat → Option Str
  | 0 => suffixSplitAt lex patterns before after sentence 0
  | split + 1 =>
    match suffixSplitAt lex patterns before after sentence (split + 1) with
    | some out => some out
    | none => suffixSplitLoop lex patterns before after sentence split

/-- The conjunction positions, left to right (`parser.rs` 159–170). -/
def conjIndices (words : List Str) : List Nat :=
  (words.enum.filter (fun iw => is_conjunction iw.2)).map (fun iw => iw.1)

/-- The conjunction-expansion loop of `parse_prolog` (`parser.rs`
159–354). -/
def conjLoop (lex : Lexicon) (words : List Str)
    (patterns : List PrologPattern) (sentence : Str) :
    List Nat → Option Str
  | [] => none
  | conj_idx :: rest =>
    let before := words.take conj_idx
    let after := words.drop (conj_idx + 1)
    if before = [] ∨ after = [] then
      conjLoop lex words patterns sentence rest
    else
      match subjectSharingOut lex patterns words conj_idx sentence with
      | some out => some out
      | none =>
        match suffixSplitLoop lex patterns before after sentence
            before.length with
        | some out => some out
        | none => conjLoop lex words patterns sentence rest

/-- The conjunction stage of `parse_prolog`. -/
def conjunctionStage (lex : Lexicon) (words : List Str)
    (sorted_patterns : List PrologPattern) (sentence : Str) : Option Str :=
  conjLoop lex words sorted_patterns sentence (conjIndices words)

/-- The single-pattern fallback of `parse_prolog` (`parser.rs` 356–405):
exact match first, then substring match, first pattern wins. -/
def fallbackStage (lex : Lexicon) (words : List Str)
    (patterns : List PrologPattern) (sentence : Str) : Option Str :=
  match patterns with
  | [] => none
  | p :: rest =>
    let tokens := parse_pattern p.pattern
    match try_match_pattern lex words tokens with
    | some captures =>
      some ("// FROM: ".toList ++ sentence ++ "\n// PATTERN: ".toList ++
        p.name ++ "\n".toList ++
        joinNl (apply_template captures p.template) ++ "\n".toList)
    | none =>
      match try_match_pattern_substring lex words tokens with
      | some (captures, start_idx) =>
        some ("// FROM: ".toList ++ sentence ++ "\n// PATTERN: ".toList ++
          p.name ++ " (substring match at word ".toList ++
          natToStr start_idx ++ ")\n".toList ++
          joinNl (apply_template captures p.template) ++ "\n".toList)
      | none => fallbackStage lex words rest sentence

/-- The warning output of the no-match path (`parser.rs` 407–412). -/
def warningOutput (sentence : Str) : Str :=
  "// FROM: ".toList ++ sentence ++
    "\n// WARNING: No pattern matched\nprolog_fact(".toList ++ [squote] ++
    replaceStr sentence [squote] ['\\', squote] ++ [squote] ++ ")\n".toList

/-- Rust `parse_prolog` from `parser.rs` (86–412).  The Logger is threaded
through untouched: `parser.rs` performs no logging (`logger.rs` is not
referenced by the parser, nor declared as a module in `app/mod.rs`), so
the warning sink is never notified.  The interactive-match records pushed
to `app.interactive_parser` are GUI-only state and do not affect the
returned output; they are omitted. -/
def parse_prolog (db : ParserDb) (lg : Logger) (sentence : Str) :
    Str × Logger :=
  let words := splitWs (trimEndDots sentence)
  if words = [] then ([], lg)
  else
    let sorted_patterns := get_sorted_patterns db.patterns
    let patterns_with_tokens := sorted_patterns.map
      (fun p => (p.name, p.template, parse_pattern p.pattern))
    let has_conjunctions := words.any (fun w => is_conjunction w)
    let out :=
      match (if has_conjunctions then none
             else multiMatchStage db.lex words patterns_with_tokens sentence) with
      | some o => o
      | none =>
        match conjunctionStage db.lex words sorted_patterns sentence with
        | some o => o
        | none =>
          match fallbackStage db.lex words sorted_patterns sentence with
          | some o => o
          | none => warningOutput sentence
    (out, lg)

/- ============================ THEOREMS ============================ -/

/-- C6: the part-of-speech type is total and finite with exactly the nine
values Noun, Verb, Adjective, Adverb, Pronoun, Preposition, Conjunction,
Interjection, Determiner, and compiling the pattern element
`<Determiner>` produces the token `TypeMatch([Determiner])`. -/
theorem c6_wordtype_total_and_determiner_token :
    Fintype.card WordType = 9 ∧
    wordTypeAll.Nodup ∧ wordTypeAll.length = 9 ∧
    (∀ w : WordType, w ∈ wordTypeAll) ∧
    parse_pattern "<Determiner>".toList =
      [PatternToken.TypeMatch [WordType.Determiner]] := by
  refine ⟨rfl, by decide, rfl, fun w => by cases w <;> decide, ?_⟩
  decide

/-- Witness for C6: its universally quantified conjunct instantiated at a
concrete part of speech. -/
theorem c6_witness : WordType.Determiner ∈ wordTypeAll :=
  c6_wordtype_total_and_determiner_token.2.2.2.1 WordType.Determiner

/-- C1 (the code contradicts the spec's longest-digit-run rule):
`apply_template` replaces `$N` sequentially for `N = 1, 2, …`, so with
the ten captures `a … j` the template line `p($10).` is instantiated to
`p(a0).` — the first capture followed by the digit `0` — and not to the
tenth capture, `p(j).`. -/
theorem c1_apply_template_naive_replacement :
    apply_template
      (["a", "b", "c", "d", "e", "f", "g", "h", "i", "j"].map String.toList)
      "p($10).".toList = ["p(a0).".toList] ∧
    ("p(a0).".toList : Str) ≠ "p(j).".toList := by
  exact ⟨by decide, by decide⟩

/-- A fold of same-valued inserts over a form list behaves as a bulk
insert. -/
theorem formsFold_char (forms : List Str) (m : Str → Option Str) (l k : Str) :
    (forms.foldl (fun m form => hmInsert m form l) m) k =
      if k ∈ forms then some l else m k := by
  induction forms generalizing m with
  | nil => simp
  | cons f fs ih =>
    simp only [List.foldl_cons, ih, List.mem_cons, hmInsert]
    by_cases hfs : k ∈ fs
    · simp [hfs]
    · by_cases hf : k = f <;> simp [hf, hfs]

/-- Characterization of one `rebuild_index` loop step on `form_index`. -/
theorem rebuildEntry_form_index (db : Database) (e : WordEntry) (k : Str) :
    (rebuildEntry db e).form_index k =
      if k ∈ e.forms ∨ k = e.lemma_ then some e.lemma_ else db.form_index k := by
  show (e.forms.foldl (fun m form => hmInsert m form e.lemma_)
      (hmInsert db.form_index e.lemma_ e.lemma_)) k = _
  rw [formsFold_char]
  by_cases hfs : k ∈ e.forms
  · simp [hfs]
  · by_cases hl : k = e.lemma_ <;> simp [hfs, hl, hmInsert]

/-- Characterization of one `rebuild_index` loop step on `form_value`. -/
theorem rebuildEntry_form_value (db : Database) (e : WordEntry) (k : Str) :
    (rebuildEntry db e).form_value k =
      if k = e.lemma_ then some e else db.form_value k := by
  show hmInsert db.form_value e.lemma_ e k = _
  by_cases hl : k = e.lemma_ <;> simp [hl, hmInsert]

/-- A key once present in `form_index` stays present across the fold. -/
theorem fold_form_index_mono (ws : List WordEntry) (acc : Database) (k : Str)
    (h : ∃ L, acc.form_index k = some L) :
    ∃ L, (ws.foldl rebuildEntry acc).form_index k = some L := by
  induction ws generalizing acc with
  | nil => exact h
  | cons e es ih =>
    refine ih (rebuildEntry acc e) ?_
    rw [rebuildEntry_form_index]
    obtain ⟨L, hL⟩ := h
    by_cases hc : k ∈ e.forms ∨ k = e.lemma_
    · exact ⟨e.lemma_, by simp [hc]⟩
    · exact ⟨L, by simp [hc, hL]⟩

/-- Every form (and the lemma) of every processed entry ends up in the
domain of `form_index`. -/
theorem fold_form_index_some (ws : List WordEntry) (acc : Database)
    (E : WordEntry) (hE : E ∈ ws) (F : Str) (hF : F ∈ E.forms ∨ F = E.lemma_) :
    ∃ L, (ws.foldl rebuildEntry acc).form_index F = some L := by
  induction ws generalizing acc with
  | nil => cases hE
  | cons e es ih =>
    rcases List.mem_cons.mp hE with rfl | hE'
    · refine fold_form_index_mono es (rebuildEntry acc E) F ?_
      exact ⟨E.lemma_, by rw [rebuildEntry_form_index]; simp [hF]⟩
    · exact ih (rebuildEntry acc e) hE'

/-- Every value stored in `form_index` by the fold is the lemma of a
processed entry (or was already there). -/
theorem fold_form_index_values (ws : List WordEntry) (acc : Database)
    (k L : Str) (h : (ws.foldl rebuildEntry acc).form_index k = some L) :
    (∃ E' ∈ ws, E'.lemma_ = L) ∨ acc.form_index k = some L := by
  induction ws generalizing acc with
  | nil => exact Or.inr h
  | cons e es ih =>
    rcases ih (rebuildEntry acc e) h with h' | h'
    · obtain ⟨E', hE', hlem⟩ := h'
      exact Or.inl ⟨E', List.mem_cons_of_mem e hE', hlem⟩
    · rw [rebuildEntry_form_index] at h'
      by_cases hc : k ∈ e.forms ∨ k = e.lemma_
      · refine Or.inl ⟨e, List.mem_cons_self e es, ?_⟩
        simpa [hc] using h'
      · exact Or.inr (by simpa [hc] using h')

/-- Every value stored in `form_value` by the fold is a processed entry
keyed by its own lemma (or was already there). -/
theorem fold_form_value_values (ws : List WordEntry) (acc : Database)
    (L : Str) (E' : WordEntry)
    (h : (ws.foldl rebuildEntry acc).form_value L = some E') :
    (E' ∈ ws ∧ E'.lemma_ = L) ∨ acc.form_value L = some E' := by
  induction ws generalizing acc with
  | nil => exact Or.inr h
  | cons e es ih =>
    rcases ih (rebuildEntry acc e) h with h' | h'
    · exact Or.inl ⟨List.mem_cons_of_mem e h'.1, h'.2⟩
    · rw [rebuildEntry_form_value] at h'
      by_cases hc : L = e.lemma_
      · rw [if_pos hc] at h'
        injection h' with h''
        subst h''
        exact Or.inl ⟨List.mem_cons_self e es, hc.symm⟩
      · exact Or.inr (by simpa [hc] using h')

/-- The lemma of every processed entry ends up in the domain of
`form_value`. -/
theorem fold_form_value_some (ws : List WordEntry) (acc : Database) (L : Str)
    (h : (∃ E' ∈ ws, E'.lemma_ = L) ∨ (∃ E', acc.form_value L = some E')) :
    ∃ E', (ws.foldl rebuildEntry acc).form_value L = some E' := by
  induction ws generalizing acc with
  | nil =>
    rcases h with ⟨_, hmem, _⟩ | h'
    · cases hmem
    · exact h'
  | cons e es ih =>
    refine ih (rebuildEntry acc e) ?_
    by_cases hc : L = e.lemma_
    · exact Or.inr ⟨e, by rw [rebuildEntry_form_value]; simp [hc]⟩
    · rcases h with ⟨E', hmem, hlem⟩ | ⟨E', hE'⟩
      · rcases List.mem_cons.mp hmem with rfl | hmem'
        · exact absurd hlem.symm hc
        · exact Or.inl ⟨E', hmem', hlem⟩
      · exact Or.inr ⟨E', by rw [rebuildEntry_form_value]; simp [hc, hE']⟩

/-- C2, amended: after `rebuild_index`, every form `F` (and the lemma) of
every entry `E` resolves through `form_index` to some lemma `L` owned by
an entry of the word list, and the singleton lookup `form_value L` returns
one entry of the word list whose lemma is `L` — not all entries sharing
`L`, and not necessarily `E` itself. -/
theorem c2_rebuild_index_lookup (db : Database) (E : WordEntry)
    (hE : E ∈ db.words) (F : Str) (hF : F ∈ E.forms ∨ F = E.lemma_) :
    ∃ L, (rebuild_index db).form_index F = some L ∧
      ∃ E', (rebuild_index db).form_value L = some E' ∧
        E' ∈ db.words ∧ E'.lemma_ = L := by
  obtain ⟨L, hL⟩ := fold_form_index_some db.words
    { db with form_index := hmEmpty, form_value := hmEmpty } E hE F hF
  refine ⟨L, hL, ?_⟩
  have hlem : ∃ E'' ∈ db.words, E''.lemma_ = L := by
    rcases fold_form_index_values db.words _ F L hL with h | h
    · exact h
    · exact absurd h (by simp [hmEmpty])
  obtain ⟨E', hE'⟩ := fold_form_value_some db.words
    { db with form_index := hmEmpty, form_value := hmEmpty } L (Or.inl hlem)
  rcases fold_form_value_values db.words _ L E' hE' with h | h
  · exact ⟨E', hE', h.1, h.2⟩
  · exact absurd h (by simp [hmEmpty])

/-- Witness for C2's amended theorem at a concrete database. -/
theorem c2_witness :
    ∃ L, (rebuild_index
        (Database.mk [⟨"cat".toList, WordType.Noun, ["cats".toList]⟩]
          hmEmpty hmEmpty)).form_index "cats".toList = some L ∧
      ∃ E', (rebuild_index
          (Database.mk [⟨"cat".toList, WordType.Noun, ["cats".toList]⟩]
            hmEmpty hmEmpty)).form_value L = some E' ∧
        E' ∈ [(⟨"cat".toList, WordType.Noun, ["cats".toList]⟩ : WordEntry)] ∧
        E'.lemma_ = L :=
  c2_rebuild_index_lookup
    (Database.mk [⟨"cat".toList, WordType.Noun, ["cats".toList]⟩]
      hmEmpty hmEmpty)
    ⟨"cat".toList, WordType.Noun, ["cats".toList]⟩
    (List.mem_singleton.mpr rfl) "cats".toList (by decide)

/-- Counterexample to C2 as stated: with two homograph entries sharing the
lemma `bank` (a Noun one and a Verb one), the form `bank` of the first
entry resolves to the lemma `bank`, but the lookup returns only the second
entry — the Noun entry is not among the entries returned, so lookup does
not return all entries sharing the lemma. -/
theorem c2_counterexample_homograph_lost :
    (rebuild_index (Database.mk
        [⟨"bank".toList, WordType.Noun, []⟩, ⟨"bank".toList, WordType.Verb, []⟩]
        hmEmpty hmEmpty)).form_index "bank".toList = some "bank".toList ∧
    get_word_entry (rebuild_index (Database.mk
        [⟨"bank".toList, WordType.Noun, []⟩, ⟨"bank".toList, WordType.Verb, []⟩]
        hmEmpty hmEmpty)) "bank".toList =
      some ⟨"bank".toList, WordType.Verb, []⟩ ∧
    (⟨"bank".toList, WordType.Verb, []⟩ : WordEntry) ≠
      ⟨"bank".toList, WordType.Noun, []⟩ := by
  exact ⟨by decide, by decide, by decide⟩

/-- The segmenter loop equals declarative chunking at the code's boundary
condition. -/
theorem parseSentencesAux_eq_chunks (rest current : Str) :
    parseSentencesAux rest current =
      emitChunk (current ++ (chunksBy isSentenceEndAfterDot rest).1) ++
        ((chunksBy isSentenceEndAfterDot rest).2.map emitChunk).flatten := by
  induction rest generalizing current with
  | nil => simp [parseSentencesAux, chunksBy, emitChunk]
  | cons c cs ih =>
    by_cases h : c = '.' ∧ isSentenceEndAfterDot cs
    · simp only [parseSentencesAux, chunksBy, if_pos h, ih, emitChunk,
        List.map_cons, List.flatten_cons, List.nil_append, List.append_assoc]
    · simp only [parseSentencesAux, chunksBy, if_neg h, ih,
        List.append_assoc, List.singleton_append]

/-- The code's lookahead agrees with the space-triggered boundary
condition. -/
theorem isSentenceEndAfterDot_eq_spaceBoundary :
    isSentenceEndAfterDot = spaceBoundary := by
  funext rest
  cases rest with
  | nil => rfl
  | cons c cs =>
    simp only [isSentenceEndAfterDot, spaceBoundary, List.head?]
    by_cases h1 : c = '\n'
    · simp [h1]
    · by_cases h2 : c = '\r'
      · simp [h2]
      · by_cases h3 : c = ' '
        · simp [h1, h2, h3]
        · simp [h1, h2, h3]

/-- C8, amended: the segmenter splits exactly at each `'.'` whose
following character is end-of-input, a newline or carriage return, or a
space character followed (skipping intervening whitespace) by an
uppercase letter — an actual space, not arbitrary whitespace, triggers
the lookahead; any remaining non-empty tail is also emitted, and every
emitted sentence is trimmed and lowercased. -/
theorem c8_parse_sentences_spec (input : Str) :
    parse_sentences input = sentencesSpec spaceBoundary input := by
  rw [sentencesSpec, ← isSentenceEndAfterDot_eq_spaceBoundary]
  simpa using parseSentencesAux_eq_chunks input []

/-- Witness for C8 at a concrete input. -/
theorem c8_witness :
    parse_sentences "Bear is an animal. He runs.".toList =
      sentencesSpec spaceBoundary "Bear is an animal. He runs.".toList :=
  c8_parse_sentences_spec "Bear is an animal. He runs.".toList

/-- Counterexample to C8 as stated: in `a.\tB.` the first `'.'` is
followed by a tab (whitespace) and then an uppercase letter, so the
claim's segmenter splits there — but the code only performs the lookahead
after a space character, so it emits the whole input as one sentence. -/
theorem c8_counterexample_tab_not_split :
    parse_sentences "a.\tB.".toList = ["a.\tb.".toList] ∧
    sentencesSpec claimWsBoundary "a.\tB.".toList =
      ["a.".toList, "b.".toList] ∧
    ["a.\tb.".toList] ≠ ["a.".toList, "b.".toList] := by
  exact ⟨by decide, by decide, by decide⟩

/-- C10: `Logger::log` records a (category, payload) pair in the
de-duplication state only after the log line has been appended: when the
file I/O fails the error is returned with the state unchanged, and a
subsequent call with the same pair performs the write and only then marks
the pair. -/
theorem c10_log_marks_only_after_write (lg : Logger) (level : LogLevel)
    (category message d : Str)
    (hnew : has_been_logged lg category (some d) = false) :
    Logger.log lg level category message (some d) true = (.error (), lg) ∧
    Logger.log lg level category message (some d) false =
      (.ok (), { logged_entries := (category, d) :: lg.logged_entries,
                 file := lg.file ++ [logLine level category message (some d)] }) := by
  constructor <;> simp [Logger.log, hnew, mark_as_logged]

/-- Witness for C10 at a concrete fresh logger. -/
theorem c10_witness :
    Logger.log ⟨[], []⟩ LogLevel.Warning "unparsed_sentence".toList
        "Unable to parse sentence".toList (some "cat is nice".toList) true =
      (.error (), (⟨[], []⟩ : Logger)) ∧
    Logger.log ⟨[], []⟩ LogLevel.Warning "unparsed_sentence".toList
        "Unable to parse sentence".toList (some "cat is nice".toList) false =
      (.ok (), { logged_entries := [("unparsed_sentence".toList, "cat is nice".toList)],
                 file := [logLine LogLevel.Warning "unparsed_sentence".toList
                   "Unable to parse sentence".toList (some "cat is nice".toList)] }) :=
  c10_log_marks_only_after_write ⟨[], []⟩ LogLevel.Warning
    "unparsed_sentence".toList "Unable to parse sentence".toList
    "cat is nice".toList (by decide)

theorem isSome_orElse {α : Type} (a : Option α) (f : Unit → Option α) :
    (a.orElse f).isSome = (a.isSome || (f ()).isSome) := by
  cases a <;> rfl

theorem isSome_map {α β : Type} (f : α → β) (o : Option α) :
    (o.map f).isSome = o.isSome := by
  cases o <;> rfl

theorem takeWhile_length_le {α : Type} (p : α → Bool) (l : List α) :
    (l.takeWhile p).length ≤ l.length := by
  induction l with
  | nil => simp
  | cons c cs ih =>
    rw [List.takeWhile_cons]
    by_cases h : p c = true
    · simp only [h, if_pos, List.length_cons]
      omega
    · simp [h]

theorem head?_append {α : Type} (l l' : List α) :
    (l ++ l').head? = l.head?.orElse (fun _ => l'.head?) := by
  cases l <;> rfl

/-- Membership at one-larger consumed count in a capture-rewriting,
count-shifting map. -/
theorem exists_pair_mem_map_shift {α : Type} (l : List (α × Nat))
    (g : α × Nat → α) (n : Nat) :
    (∃ c, (c, n + 1) ∈ l.map (fun r => (g r, r.2 + 1))) ↔ ∃ c, (c, n) ∈ l := by
  constructor
  · rintro ⟨c, hmem⟩
    rcases List.mem_map.mp hmem with ⟨r, hr, heq⟩
    simp only [Prod.mk.injEq] at heq
    obtain ⟨h1, h2⟩ := heq
    have hn : r.2 = n := by omega
    exact ⟨r.1, by rw [← hn]; exact hr⟩
  · rintro ⟨c, hmem⟩
    exact ⟨g (c, n), List.mem_map.mpr ⟨(c, n), hmem, rfl⟩⟩

/-- Success of the first-match greedy split loop: some split size `j`
between 1 and `k` admits a continuation. -/
theorem greedyLoop_isSome (cont : List Str → Option (List Str))
    (full : List Str) (k : Nat) :
    (greedyLoop cont full k).isSome = true ↔
      ∃ j, 1 ≤ j ∧ j ≤ k ∧ (cont (full.drop j)).isSome = true := by
  induction k with
  | zero =>
    simp only [greedyLoop, Option.isSome_none]
    constructor
    · intro h; cases h
    · rintro ⟨j, h1, h2, _⟩; omega
  | succ k ih =>
    cases h : cont (full.drop (k + 1)) with
    | some caps =>
      simp only [greedyLoop, h, Option.isSome_some, true_iff]
      exact ⟨k + 1, by omega, le_refl _, by rw [h]; rfl⟩
    | none =>
      simp only [greedyLoop, h, ih]
      constructor
      · rintro ⟨j, h1, h2, h3⟩; exact ⟨j, h1, by omega, h3⟩
      · rintro ⟨j, h1, h2, h3⟩
        rcases Nat.lt_or_ge j (k + 1) with hlt | hge
        · exact ⟨j, h1, by omega, h3⟩
        · have hj : j = k + 1 := by omega
          subst hj
          rw [h] at h3
          cases h3

/-- Full-length membership in the collecting greedy split loop: some
split size `j` between 1 and `k` admits a full-length continuation run. -/
theorem greedyLoopAll_mem (cont : List Str → List (List Str × Nat))
    (full : List Str) (k : Nat) (hk : k ≤ full.length) :
    (∃ caps, (caps, full.length) ∈ greedyLoopAll cont full k) ↔
      ∃ j, 1 ≤ j ∧ j ≤ k ∧
        ∃ caps, (caps, (full.drop j).length) ∈ cont (full.drop j) := by
  induction k with
  | zero =>
    simp only [greedyLoopAll, List.not_mem_nil]
    constructor
    · rintro ⟨_, h⟩; cases h
    · rintro ⟨j, h1, h2, _⟩; omega
  | succ k ih =>
    have hk' : k ≤ full.length := by omega
    constructor
    · rintro ⟨caps, hmem⟩
      rcases List.mem_append.mp hmem with hmem' | hmem'
      · rcases List.mem_map.mp hmem' with ⟨r, hr, heq⟩
        simp only [Prod.mk.injEq] at heq
        obtain ⟨h1, h2⟩ := heq
        refine ⟨k + 1, by omega, le_refl _, r.1, ?_⟩
        have hlen : (full.drop (k + 1)).length = r.2 := by
          rw [List.length_drop]; omega
        rw [hlen]; exact hr
      · obtain ⟨j, h1, h2, h3⟩ := (ih hk').mp ⟨caps, hmem'⟩
        exact ⟨j, h1, by omega, h3⟩
    · rintro ⟨j, h1, h2, caps, hmem⟩
      rcases Nat.lt_or_ge j (k + 1) with hlt | hge
      · obtain ⟨caps', hmem'⟩ := (ih hk').mpr ⟨j, h1, by omega, caps, hmem⟩
        exact ⟨caps', List.mem_append.mpr (Or.inr hmem')⟩
      · have hj : j = k + 1 := by omega
        subst hj
        refine ⟨greedyCapture (full.take (k + 1)) :: caps,
          List.mem_append.mpr (Or.inl ?_)⟩
        refine List.mem_map.mpr ⟨(caps, (full.drop (k + 1)).length), hmem, ?_⟩
        simp only [Prod.mk.injEq, List.length_drop, true_and]
        omega

/-- The exact matcher succeeds iff some run of the with-end backtracker
consumes every word. -/
theorem backtrack_isSome_iff_fullRun (lex : Lexicon) (ts : List PatternToken) :
    ∀ ws : List Str, (backtrack lex ts ws).isSome = true ↔
      ∃ caps, (caps, ws.length) ∈ allMatchRuns lex ts ws := by
  induction ts with
  | nil =>
    intro ws
    cases ws <;> simp [backtrack, allMatchRuns]
  | cons t ts ih =>
    intro ws
    cases ws with
    | nil =>
      by_cases hopt : ((t :: ts).all isOptionalTok) = true <;>
        simp [backtrack, allMatchRuns, hopt]
    | cons w ws =>
      cases t with
      | Literal lit =>
        by_cases hm : matches_token lex w (.Literal lit) = true
        · simp only [backtrack, allMatchRuns, hm, if_pos, isSome_map,
            List.length_cons]
          rw [exists_pair_mem_map_shift]
          exact ih ws
        · simp [backtrack, allMatchRuns, hm]
      | TypeMatch req =>
        by_cases hm : matches_token lex w (.TypeMatch req) = true
        · simp only [backtrack, allMatchRuns, hm, if_pos, isSome_map,
            List.length_cons]
          rw [exists_pair_mem_map_shift]
          exact ih ws
        · simp [backtrack, allMatchRuns, hm]
      | Wildcard =>
        simp only [backtrack, allMatchRuns, List.length_cons, isSome_map]
        rw [exists_pair_mem_map_shift]
        exact ih ws
      | Optional inner =>
        simp only [backtrack, allMatchRuns, isSome_orElse, List.length_cons,
          List.mem_append, exists_or, Bool.or_eq_true]
        constructor
        · rintro (h | h)
          · by_cases hm : matches_token lex w inner = true
            · rw [if_pos hm] at h
              rw [isSome_map] at h
              refine Or.inl ?_
              rw [if_pos hm]
              exact (exists_pair_mem_map_shift _ _ _).mpr ((ih ws).mp h)
            · rw [if_neg hm] at h
              cases h
          · exact Or.inr ((ih (w :: ws)).mp h)
        · rintro (h | h)
          · by_cases hm : matches_token lex w inner = true
            · rw [if_pos hm] at h ⊢
              rw [isSome_map]
              exact Or.inl ((ih ws).mpr ((exists_pair_mem_map_shift _ _ _).mp h))
            · rw [if_neg hm] at h
              obtain ⟨_, hmem⟩ := h
              cases hmem
          · exact Or.inr ((ih (w :: ws)).mpr h)
      | Greedy inner =>
        by_cases hrun : (w :: ws).takeWhile (fun x => matches_token lex x inner) = []
        · simp [backtrack, allMatchRuns, hrun]
        · simp only [backtrack, allMatchRuns, if_neg hrun]
          rw [greedyLoop_isSome]
          rw [greedyLoopAll_mem _ _ _ (takeWhile_length_le _ (w :: ws))]
          simp only [ih]

/-- The first-match with-end backtracker returns the head of the run
list. -/
theorem backtrackWithEnd_eq_head (lex : Lexicon) (ts : List PatternToken) :
    ∀ ws : List Str,
      backtrackWithEnd lex ts ws = (allMatchRuns lex ts ws).head? := by
  induction ts with
  | nil => intro ws; rfl
  | cons t ts ih =>
    intro ws
    cases ws with
    | nil =>
      by_cases hopt : ((t :: ts).all isOptionalTok) = true <;>
        simp [backtrackWithEnd, allMatchRuns, hopt]
    | cons w ws =>
      have hmap : ∀ (f : List Str × Nat → List Str × Nat) (l : List (List Str × Nat)),
          (l.map f).head? = l.head?.map f := by
        intro f l; cases l <;> rfl
      cases t with
      | Literal lit =>
        by_cases hm : matches_token lex w (.Literal lit) = true <;>
          simp [backtrackWithEnd, allMatchRuns, hm, hmap, ih ws]
      | TypeMatch req =>
        by_cases hm : matches_token lex w (.TypeMatch req) = true <;>
          simp [backtrackWithEnd, allMatchRuns, hm, hmap, ih ws]
      | Wildcard =>
        simp [backtrackWithEnd, allMatchRuns, hmap, ih ws]
      | Optional inner =>
        rw [backtrackWithEnd, allMatchRuns, head?_append]
        by_cases hm : matches_token lex w inner = true
        · rw [if_pos hm, if_pos hm, hmap, ih ws, ih (w :: ws)]
        · rw [if_neg hm, if_neg hm, ih (w :: ws)]
          rfl
      | Greedy inner =>
        by_cases hrun : (w :: ws).takeWhile (fun x => matches_token lex x inner) = []
        · simp [backtrackWithEnd, allMatchRuns, hrun]
        · simp only [backtrackWithEnd, allMatchRuns, if_neg hrun]
          generalize ((w :: ws).takeWhile (fun x => matches_token lex x inner)).length = k
          induction k with
          | zero => rfl
          | succ k ihk =>
            rw [greedyLoopEnd, greedyLoopAll, head?_append, hmap, ih]
            cases h : (allMatchRuns lex ts ((w :: ws).drop (k + 1))).head? with
            | some r => rfl
            | none => simp only [Option.map_none', Option.orElse]; exact ihk

/-- C7: `try_match_pattern` (match_exact) succeeds iff there exists a run
of the `try_match_at_position` backtracker, started at position 0, whose
returned end index equals the number of words; `allMatchRuns` enumerates
exactly the runs of that backtracker — `backtrackWithEnd` returns the
first of them — so the two backtracking implementations agree on this
condition. -/
theorem c7_match_exact_iff_full_run (lex : Lexicon) (words : List Str)
    (tokens : List PatternToken) :
    backtrackWithEnd lex tokens words = (allMatchRuns lex tokens words).head? ∧
    ((try_match_pattern lex words tokens).isSome = true ↔
      ∃ caps, (caps, words.length) ∈ allMatchRuns lex tokens words) :=
  ⟨backtrackWithEnd_eq_head lex tokens words,
   backtrack_isSome_iff_fullRun lex tokens words⟩

/-- Witness for C7 at a concrete pattern and word list. -/
theorem c7_witness :
    backtrackWithEnd (fun _ => none) [PatternToken.Wildcard]
        ["bear".toList] =
      (allMatchRuns (fun _ => none) [PatternToken.Wildcard]
        ["bear".toList]).head? ∧
    ((try_match_pattern (fun _ => none) ["bear".toList]
        [PatternToken.Wildcard]).isSome = true ↔
      ∃ caps, (caps, (["bear".toList] : List Str).length) ∈
        allMatchRuns (fun _ => none) [PatternToken.Wildcard] ["bear".toList]) :=
  c7_match_exact_iff_full_run (fun _ => none) ["bear".toList]
    [PatternToken.Wildcard]

/-- Fold invariant preservation, with membership of the step element. -/
theorem foldl_invariant {β γ : Type} (P : γ → Prop) (l : List β)
    (f : γ → β → γ) (init : γ) (h0 : P init)
    (hstep : ∀ b x, x ∈ l → P b → P (f b x)) : P (l.foldl f init) := by
  induction l generalizing init with
  | nil => exact h0
  | cons x xs ih =>
    exact ih (f init x) (hstep init x (List.mem_cons_self x xs) h0)
      (fun b y hy hb => hstep b y (List.mem_cons_of_mem x hy) hb)

/-- Every match returned by the candidate scan is good. -/
theorem bestCandidate_good (lex : Lexicon) (words : List Str)
    (used : List Bool) (patterns : List (Str × Str × List PatternToken))
    (m : PatternMatch) (h : bestCandidate lex words used patterns = some m) :
    goodCandidate words used m := by
  have main : ∀ m', bestCandidate lex words used patterns = some m' →
      goodCandidate words used m' := by
    rw [bestCandidate]
    apply foldl_invariant
      (P := fun best => ∀ m', best = some m' → goodCandidate words used m')
    · intro m' hm'; cases hm'
    · intro best p _ hbest
      apply foldl_invariant
        (P := fun best => ∀ m', best = some m' → goodCandidate words used m')
      · exact hbest
      · intro b start hstart hb
        have hstartlen : start < words.length := List.mem_range.mp hstart
        intro m' hm'
        by_cases h1 : used.getD start false = true
        · rw [if_pos h1] at hm'; exact hb m' hm'
        · rw [if_neg h1] at hm'
          by_cases h2 : is_conjunction (words.getD start []) = true
          · rw [if_pos h2] at hm'; exact hb m' hm'
          · rw [if_neg h2] at hm'
            cases hmat : try_match_at_position lex words start p.2.2 p.1 p.2.1 with
            | none => simp only [hmat] at hm'; exact hb m' hm'
            | some m0 =>
              simp only [hmat] at hm'
              by_cases h3 : (List.range' m0.start_idx
                  (m0.end_idx - m0.start_idx)).any
                  (fun i => used.getD i false) = true
              · rw [if_pos h3] at hm'; exact hb m' hm'
              · rw [if_neg h3] at hm'
                split at hm'
                · injection hm' with hm''
                  subst hm''
                  obtain ⟨r, _, hr2⟩ := Option.map_eq_some'.mp hmat
                  have hs : m0.start_idx = start := by rw [← hr2]
                  have he : m0.end_idx = start + r.2 := by rw [← hr2]
                  refine ⟨by rw [hs]; exact hstartlen, by omega, ?_⟩
                  intro i hi1 hi2
                  by_contra hfalse
                  have hany : (List.range' m0.start_idx
                      (m0.end_idx - m0.start_idx)).any
                      (fun i => used.getD i false) = true := by
                    refine List.any_eq_true.mpr ⟨i, ?_, ?_⟩
                    · rw [List.mem_range'_1]
                      omega
                    · simpa using hfalse
                  exact h3 hany
                · exact hb m' hm'
  exact main m h

/-- Rust `markUsedFrom` preserves the vector length. -/
theorem markUsedFrom_length (s e : Nat) :
    ∀ (l : List Bool) (i : Nat), (markUsedFrom i s e l).length = l.length := by
  intro l
  induction l with
  | nil => intro i; rfl
  | cons b bs ih => intro i; simp [markUsedFrom, ih]

/-- Marking never increases the number of unused positions. -/
theorem markUsedFrom_countFalse_le (s e : Nat) :
    ∀ (l : List Bool) (i : Nat),
      countFalse (markUsedFrom i s e l) ≤ countFalse l := by
  intro l
  induction l with
  | nil => intro i; exact le_refl _
  | cons b bs ih =>
    intro i
    rw [markUsedFrom]
    show (if (if s ≤ i ∧ i < e then true else b) then 0 else 1) +
        countFalse (markUsedFrom (i + 1) s e bs) ≤
      (if b then 0 else 1) + countFalse bs
    have hrec := ih (i + 1)
    by_cases hc : s ≤ i ∧ i < e
    · rw [if_pos hc]
      simp only [if_true]
      cases b <;> simp <;> omega
    · rw [if_neg hc]
      omega

/-- Marking a span whose start position is present and unused strictly
decreases the number of unused positions. -/
theorem markUsedFrom_countFalse_lt (s e : Nat) :
    ∀ (l : List Bool) (i : Nat), i ≤ s → s < i + l.length → s < e →
      l.getD (s - i) false = false →
      countFalse (markUsedFrom i s e l) < countFalse l := by
  intro l
  induction l with
  | nil =>
    intro i h1 h2 h3 h4
    simp only [List.length_nil] at h2
    omega
  | cons b bs ih =>
    intro i h1 h2 h3 h4
    rw [markUsedFrom]
    show (if (if s ≤ i ∧ i < e then true else b) then 0 else 1) +
        countFalse (markUsedFrom (i + 1) s e bs) <
      (if b then 0 else 1) + countFalse bs
    by_cases hi : i = s
    · have hb : b = false := by
        have h0 : s - i = 0 := by omega
        rw [h0] at h4
        simpa using h4
      subst hb
      have hcond : s ≤ i ∧ i < e := by omega
      rw [if_pos hcond]
      have hle := markUsedFrom_countFalse_le s e bs (i + 1)
      simp only [if_true]
      simp only [Bool.false_eq_true, if_false]
      omega
    · have h1' : i + 1 ≤ s := by omega
      have h2' : s < (i + 1) + bs.length := by
        simp only [List.length_cons] at h2
        omega
      have h4' : bs.getD (s - (i + 1)) false = false := by
        have hpos : s - i = (s - (i + 1)) + 1 := by omega
        rw [hpos] at h4
        simpa using h4
      have hrec := ih (i + 1) h1' h2' h3 h4'
      by_cases hc : s ≤ i ∧ i < e
      · exact absurd (by omega : i = s) hi
      · rw [if_neg hc]
        omega

/-- The multi-match loop grows its result by at most one match per unused
position. -/
theorem findAllLoop_length_le (lex : Lexicon) (words : List Str)
    (patterns : List (Str × Str × List PatternToken)) :
    ∀ (fuel : Nat) (used : List Bool) (acc : List PatternMatch),
      used.length = words.length →
      (findAllLoop lex words patterns fuel used acc).length ≤
        acc.length + countFalse used := by
  intro fuel
  induction fuel with
  | zero =>
    intro used acc _
    rw [findAllLoop]
    omega
  | succ fuel ih =>
    intro used acc hlen
    cases hbest : bestCandidate lex words used patterns with
    | none =>
      simp only [findAllLoop, hbest]
      omega
    | some m =>
      obtain ⟨hs, hse, hun⟩ := bestCandidate_good lex words used patterns m hbest
      have hlt := markUsedFrom_countFalse_lt m.start_idx m.end_idx used 0
        (Nat.zero_le _) (by omega) hse
        (by simpa using hun m.start_idx (le_refl _) hse)
      have hrec := ih (markUsedFrom 0 m.start_idx m.end_idx used) (acc ++ [m])
        (by rw [markUsedFrom_length]; exact hlen)
      simp only [findAllLoop, hbest]
      simp only [List.length_append, List.length_cons, List.length_nil] at hrec
      omega

/-- Every match the loop records beyond its accumulator has a non-empty
span starting at a word position. -/
theorem findAllLoop_mem (lex : Lexicon) (words : List Str)
    (patterns : List (Str × Str × List PatternToken)) :
    ∀ (fuel : Nat) (used : List Bool) (acc : List PatternMatch)
      (m : PatternMatch), m ∈ findAllLoop lex words patterns fuel used acc →
      m ∈ acc ∨ (0 < m.end_idx - m.start_idx ∧ m.start_idx < words.length) := by
  intro fuel
  induction fuel with
  | zero =>
    intro used acc m hm
    rw [findAllLoop] at hm
    exact Or.inl hm
  | succ fuel ih =>
    intro used acc m hm
    cases hbest : bestCandidate lex words used patterns with
    | none =>
      simp only [findAllLoop, hbest] at hm
      exact Or.inl hm
    | some m0 =>
      simp only [findAllLoop, hbest] at hm
      rcases ih _ _ m hm with hacc | hprops
      · rcases List.mem_append.mp hacc with h | h
        · exact Or.inl h
        · obtain ⟨h1, h2, _⟩ := bestCandidate_good lex words used patterns m0 hbest
          have hm0 : m = m0 := List.mem_singleton.mp h
          subst hm0
          exact Or.inr ⟨by omega, h1⟩
      · exact Or.inr hprops

/-- With more fuel than unused positions the loop's cutoff never fires:
any two sufficient fuels give the same result. -/
theorem findAllLoop_fuel_stable (lex : Lexicon) (words : List Str)
    (patterns : List (Str × Str × List PatternToken)) :
    ∀ (f1 f2 : Nat) (used : List Bool) (acc : List PatternMatch),
      used.length = words.length →
      countFalse used < f1 → countFalse used < f2 →
      findAllLoop lex words patterns f1 used acc =
        findAllLoop lex words patterns f2 used acc := by
  intro f1
  induction f1 with
  | zero => intro f2 used acc _ h1 _; omega
  | succ f1 ih =>
    intro f2 used acc hlen h1 h2
    cases f2 with
    | zero => omega
    | succ f2 =>
      cases hbest : bestCandidate lex words used patterns with
      | none => simp only [findAllLoop, hbest]
      | some m =>
        obtain ⟨hs, hse, hun⟩ :=
          bestCandidate_good lex words used patterns m hbest
        have hlt := markUsedFrom_countFalse_lt m.start_idx m.end_idx used 0
          (Nat.zero_le _) (by omega) hse
          (by simpa using hun m.start_idx (le_refl _) hse)
        simp only [findAllLoop, hbest]
        exact ih f2 (markUsedFrom 0 m.start_idx m.end_idx used) (acc ++ [m])
          (by rw [markUsedFrom_length]; exact hlen) (by omega) (by omega)

/-- C9: the multi-match driver `find_all_pattern_matches` terminates: a
candidate is recorded only with a strictly positive span length, each
recorded match marks at least one previously unused word position, the
number of recorded matches is bounded by the number of words, and the
loop is insensitive to any fuel beyond `words.length + 1` — zero-length
matches are never selected. -/
theorem c9_find_all_terminates (lex : Lexicon) (words : List Str)
    (patterns : List (Str × Str × List PatternToken)) :
    (∀ m ∈ find_all_pattern_matches lex words patterns,
        0 < m.end_idx - m.start_idx ∧ m.start_idx < words.length) ∧
    (find_all_pattern_matches lex words patterns).length ≤ words.length ∧
    (∀ fuel, words.length + 1 ≤ fuel →
      findAllLoop lex words patterns fuel
          (List.replicate words.length false) [] =
        find_all_pattern_matches lex words patterns) := by
  have hcount : countFalse (List.replicate words.length false) =
      words.length := by
    induction words.length with
    | zero => rfl
    | succ n ihn =>
      rw [List.replicate_succ]
      show 1 + countFalse (List.replicate n false) = n + 1
      rw [ihn]
      omega
  refine ⟨?_, ?_, ?_⟩
  · intro m hm
    rcases findAllLoop_mem lex words patterns _ _ _ m hm with h | h
    · cases h
    · exact h
  · have hb := findAllLoop_length_le lex words patterns (words.length + 1)
      (List.replicate words.length false) [] (by simp)
    rw [hcount] at hb
    simpa [find_all_pattern_matches] using hb
  · intro fuel hfuel
    exact findAllLoop_fuel_stable lex words patterns fuel (words.length + 1)
      (List.replicate words.length false) [] (by simp)
      (by omega) (by omega)

/-- Witness for C9 at a concrete sentence and pattern list. -/
theorem c9_witness :
    (∀ m ∈ find_all_pattern_matches (fun _ => none)
        ["bear".toList, "runs".toList]
        [("p".toList, "t".toList, [PatternToken.Wildcard])],
      0 < m.end_idx - m.start_idx ∧
        m.start_idx < (["bear".toList, "runs".toList] : List Str).length) ∧
    (find_all_pattern_matches (fun _ => none)
        ["bear".toList, "runs".toList]
        [("p".toList, "t".toList, [PatternToken.Wildcard])]).length ≤
      (["bear".toList, "runs".toList] : List Str).length ∧
    (∀ fuel, (["bear".toList, "runs".toList] : List Str).length + 1 ≤ fuel →
      findAllLoop (fun _ => none) ["bear".toList, "runs".toList]
          [("p".toList, "t".toList, [PatternToken.Wildcard])] fuel
          (List.replicate
            (["bear".toList, "runs".toList] : List Str).length false) [] =
        find_all_pattern_matches (fun _ => none)
          ["bear".toList, "runs".toList]
          [("p".toList, "t".toList, [PatternToken.Wildcard])]) :=
  c9_find_all_terminates (fun _ => none) ["bear".toList, "runs".toList]
    [("p".toList, "t".toList, [PatternToken.Wildcard])]

/-- A fold establishes `P` once a designated element establishes it and
every step preserves it. -/
theorem foldl_establishes {β γ : Type} (P : γ → Prop) (l : List β)
    (f : γ → β → γ) (x : β) (hx : x ∈ l)
    (hest : ∀ acc, P (f acc x))
    (hpres : ∀ acc y, P acc → P (f acc y)) :
    ∀ init, P (l.foldl f init) := by
  induction l with
  | nil => cases hx
  | cons z zs ih =>
    intro init
    rcases List.mem_cons.mp hx with rfl | hx'
    · exact foldl_invariant P zs f (f init x) (hest init)
        (fun b y _ hb => hpres b y hb)
    · exact ih hx' (f init z)

theorem mem_dedupPush_self (acc : List Str) (r : Str) : r ∈ dedupPush acc r := by
  rw [dedupPush]
  by_cases h : r ∈ acc
  · rw [if_pos h]; exact h
  · rw [if_neg h]
    exact List.mem_append.mpr (Or.inr (List.mem_singleton.mpr rfl))

theorem mem_dedupPush_of_mem (acc : List Str) (r v : Str) (h : v ∈ acc) :
    v ∈ dedupPush acc r := by
  rw [dedupPush]
  by_cases h' : r ∈ acc
  · rw [if_pos h']; exact h
  · rw [if_neg h']; exact List.mem_append.mpr (Or.inl h)

theorem dedupPush_nodup (acc : List Str) (r : Str) (h : acc.Nodup) :
    (dedupPush acc r).Nodup := by
  rw [dedupPush]
  by_cases h' : r ∈ acc
  · rw [if_pos h']; exact h
  · rw [if_neg h']
    simp [List.nodup_append, h, h']

/-- C3: `query_simple`, in addition to forward matching under the goal's
predicate, performs bidirectional matching: for every fact in the store
and every argument position whose argument equals the goal's predicate,
unifying the goal's arguments against the reversed argument list
`fact.predicate :: other args` contributes its formatted binding to the
result list. -/
theorem c3_bidirectional_matching (e : QueryEngine) (q : Fact) (f : Fact)
    (hf : f ∈ e.facts) (ia : Nat × Str) (hia : ia ∈ f.args.enum)
    (harg : ia.2 = q.predicate) (b : List (Str × Str))
    (hu : unify q.args (reversedArgs f ia.1) = some b) :
    format_bindings b ∈ query_simpleFact e q := by
  rw [query_simpleFact]
  apply foldl_invariant (P := fun acc => format_bindings b ∈ acc)
  · apply foldl_establishes (P := fun acc => format_bindings b ∈ acc)
      e.facts _ f hf
    · intro acc
      apply foldl_establishes (P := fun acc => format_bindings b ∈ acc)
        f.args.enum _ ia hia
      · intro acc2
        split
        · split
          next b' heq =>
            rw [hu] at heq
            injection heq with heq'
            subst heq'
            exact mem_dedupPush_self acc2 _
          next heq =>
            rw [hu] at heq
            cases heq
        · next hcond => exact absurd harg hcond
      · intro acc2 y hy
        split
        · split
          · exact mem_dedupPush_of_mem _ _ _ hy
          · exact hy
        · exact hy
    · intro acc g hacc
      apply foldl_invariant (P := fun acc => format_bindings b ∈ acc)
      · exact hacc
      · intro acc2 y _ hy
        split
        · split
          · exact mem_dedupPush_of_mem _ _ _ hy
          · exact hy
        · exact hy
  · intro acc rule _ hacc
    split
    · split
      next rs heq =>
        exact foldl_invariant _ rs dedupPush acc hacc
          (fun b' y _ hb' => mem_dedupPush_of_mem _ _ _ hb')
      next => exact hacc
    · exact hacc

/-- Witness for C3: with fact `bear(animal)` in the store, the query goal
`animal(X)` contains the binding `X = bear` among its results. -/
theorem c3_witness :
    format_bindings [("X".toList, "bear".toList)] ∈
      query_simpleFact ⟨[⟨"bear".toList, ["animal".toList]⟩], [], []⟩
        ⟨"animal".toList, ["X".toList]⟩ :=
  c3_bidirectional_matching
    ⟨[⟨"bear".toList, ["animal".toList]⟩], [], []⟩
    ⟨"animal".toList, ["X".toList]⟩
    ⟨"bear".toList, ["animal".toList]⟩
    (List.mem_singleton.mpr rfl)
    (0, "animal".toList) (by decide) rfl
    [("X".toList, "bear".toList)] (by decide)

/-- The accumulated result list of a simple goal has no duplicates. -/
theorem nodup_query_simpleFact (e : QueryEngine) (q : Fact) :
    (query_simpleFact e q).Nodup := by
  rw [query_simpleFact]
  apply foldl_invariant (fun acc : List Str => acc.Nodup)
  · apply foldl_invariant (fun acc : List Str => acc.Nodup)
    · apply foldl_invariant (fun acc : List Str => acc.Nodup)
      · exact List.nodup_nil
      · intro acc fact _ hacc
        split
        · exact dedupPush_nodup _ _ hacc
        · exact hacc
    · intro acc fact _ hacc
      apply foldl_invariant (fun acc : List Str => acc.Nodup)
      · exact hacc
      · intro acc2 ia _ hacc2
        split
        · split
          · exact dedupPush_nodup _ _ hacc2
          · exact hacc2
        · exact hacc2
  · intro acc rule _ hacc
    split
    · split
      next rs heq =>
        exact foldl_invariant _ rs dedupPush acc hacc
          (fun b y _ hb => dedupPush_nodup _ _ hb)
      next => exact hacc
    · exact hacc

/-- C4, amended: only simple goals are de-duplicated — the result list of
`query_simple` contains no two equal formatted strings; conjunction and
phrase query results are not de-duplicated and may repeat. -/
theorem c4_simple_query_deduplicated (e : QueryEngine) (s : Str)
    (l : List Str) (h : query_simple e s = Except.ok l) : l.Nodup := by
  rw [query_simple] at h
  cases hp : parse_fact s with
  | none =>
    simp only [hp] at h
    exact Except.noConfusion h
  | some q =>
    simp only [hp] at h
    injection h with h'
    rw [← h']
    exact nodup_query_simpleFact e q

/-- Witness for C4's amended theorem at a concrete engine and query. -/
theorem c4_witness :
    (["X = bear".toList] : List Str).Nodup :=
  c4_simple_query_deduplicated
    ⟨[⟨"bear".toList, ["animal".toList]⟩], [], []⟩ "animal(X)".toList
    ["X = bear".toList] rfl

/-- Counterexample to C4 as stated: with facts `p(a). p(a). q(b).` and
phrase `s --> p`, the conjunctive query `p(X), q(Y)` returns the
formatted string `X = a, Y = b` twice, and the phrase query
`phrase(s, X)` returns `X = [a]` twice — duplicate formatted strings in
the result lists. -/
theorem c4_counterexample_conj_phrase_duplicates :
    query ⟨[⟨"p".toList, ["a".toList]⟩, ⟨"p".toList, ["a".toList]⟩,
            ⟨"q".toList, ["b".toList]⟩], [],
           [⟨"s".toList, ["p".toList]⟩]⟩ "p(X), q(Y)".toList =
      Except.ok ["X = a, Y = b".toList, "X = a, Y = b".toList] ∧
    query ⟨[⟨"p".toList, ["a".toList]⟩, ⟨"p".toList, ["a".toList]⟩,
            ⟨"q".toList, ["b".toList]⟩], [],
           [⟨"s".toList, ["p".toList]⟩]⟩ "phrase(s, X)".toList =
      Except.ok ["X = [a]".toList, "X = [a]".toList] ∧
    ¬ (["X = a, Y = b".toList, "X = a, Y = b".toList] : List Str).Nodup := by
  refine ⟨rfl, rfl, by decide⟩

/-- C5, amended: for every non-empty sentence on which no enabled pattern
matches by any path — multi-match (when conjunction-free), conjunction
expansion, exact, or substring — the dispatcher emits
`// WARNING: No pattern matched` and the degenerate fact
`prolog_fact('<sentence with single quotes escaped>')`; the warning sink
is NOT notified: the logger state is returned unchanged
(`log_unparsed_sentence` exists in `logger.rs` but `parse_prolog` never
calls it). -/
theorem c5_no_match_warning (db : ParserDb) (lg : Logger) (sentence : Str)
    (hw : splitWs (trimEndDots sentence) ≠ [])
    (h1 : (splitWs (trimEndDots sentence)).any
        (fun w => is_conjunction w) = false →
      multiMatchStage db.lex (splitWs (trimEndDots sentence))
        ((get_sorted_patterns db.patterns).map
          (fun p => (p.name, p.template, parse_pattern p.pattern)))
        sentence = none)
    (h2 : conjunctionStage db.lex (splitWs (trimEndDots sentence))
        (get_sorted_patterns db.patterns) sentence = none)
    (h3 : fallbackStage db.lex (splitWs (trimEndDots sentence))
        (get_sorted_patterns db.patterns) sentence = none) :
    parse_prolog db lg sentence =
      ("// FROM: ".toList ++ sentence ++
        "\n// WARNING: No pattern matched\nprolog_fact(".toList ++ [squote] ++
        replaceStr sentence [squote] ['\\', squote] ++ [squote] ++
        ")\n".toList, lg) := by
  rw [parse_prolog]
  simp only [if_neg hw]
  cases hconj : (splitWs (trimEndDots sentence)).any (fun w => is_conjunction w) with
  | true => simp only [hconj, if_true, h2, h3, warningOutput]
  | false =>
    simp only [hconj, if_false, h1 hconj, h2, h3, warningOutput]
    rfl

/-- Witness for C5's amended theorem: with no patterns at all, the
sentence `foo bar` takes the warning path and the logger is untouched. -/
theorem c5_witness :
    parse_prolog ⟨[], fun _ => none⟩ ⟨[], []⟩ "foo bar".toList =
      ("// FROM: ".toList ++ "foo bar".toList ++
        "\n// WARNING: No pattern matched\nprolog_fact(".toList ++ [squote] ++
        replaceStr "foo bar".toList [squote] ['\\', squote] ++ [squote] ++
        ")\n".toList, (⟨[], []⟩ : Logger)) :=
  c5_no_match_warning ⟨[], fun _ => none⟩ ⟨[], []⟩ "foo bar".toList
    (by decide) (fun _ => rfl) rfl rfl

/-- Counterexample to C5 as stated: on the unmatched sentence `foo bar`
the dispatcher produces the warning line and the degenerate fact, but the
warning sink receives nothing — the logger's de-duplication state after
the call is still empty, whereas the claim requires a notification with
the sentence as payload. -/
theorem c5_counterexample_no_sink_notification :
    (parse_prolog ⟨[], fun _ => none⟩ ⟨[], []⟩ "foo bar".toList).1 =
      ("// FROM: foo bar\n// WARNING: No pattern matched\nprolog_fact(".toList
        ++ [squote] ++ "foo bar".toList ++ [squote] ++ ")\n".toList) ∧
    ((parse_prolog ⟨[], fun _ => none⟩ ⟨[], []⟩
        "foo bar".toList).2).logged_entries = [] := by
  exact ⟨rfl, rfl⟩

end SimpleProlog
